import Mathlib

/-!
Verification of mmculib's `flashheap.c`, a packet-based heap allocator for a
flash-like storage device.

The on-media state is modelled at header granularity: every packet operation in
the C source reads or writes exactly one fixed-width signed header
(`flashheap_packet_t`, a single `flashheap_size_t` field) at a given address, so
the device is a map `Int → Int` from addresses to the header value readable
there, together with two predicates saying which addresses the device can
successfully read or write (a transfer of fewer bytes than requested is a
failure in the C source; a failed transfer is modelled as leaving the store
unchanged).  Addresses and sizes are unbounded integers; `hsize` stands for
`sizeof (flashheap_packet_t)`, which the C source fixes at compile time but the
header file is not part of the sources, so it is kept as a parameter.

The `Heap` structure bundles the fields of `flashheap_dev_t` (device, read and
write operations, `offset`, `size`, `last`) with the modelled device state.
Loops in the C source are modelled with explicit fuel; the top-level wrappers
pass `size.toNat + 1` fuel, which is never exhausted when `1 ≤ hsize` because
every loop iteration advances the scan address by at least `hsize`.
-/

/-- Heap instance: the fields of `flashheap_dev_t` plus the modelled device
state.  `mem a` is the header value a successful read at address `a` returns;
`readOK`/`writeOK` say which addresses the device transfers successfully. -/
structure Heap where
  mem : Int → Int
  readOK : Int → Bool
  writeOK : Int → Bool
  offset : Int
  size : Int
  last : Int
  hsize : Int

/-- Pointwise update of a header store at one address. -/
def memUpd (mem : Int → Int) (b v : Int) : Int → Int :=
  fun a => if a = b then v else mem a

/-- A device read of one packet header (`flashheap_packet_read` in the source):
returns the stored header, or `none` when the transfer fails. -/
def flashheap_packet_read (heap : Heap) (addr : Int) : Option Int :=
  if heap.readOK addr then some (heap.mem addr) else none

/-- A device write of one packet header (`heap->write` of `sizeof (packet)`
bytes): on success the store is updated at that address, on failure it is
unchanged and `none` is returned. -/
def flashheap_write (heap : Heap) (addr v : Int) : Option Heap :=
  if heap.writeOK addr then
    some { heap with mem := memUpd heap.mem addr v }
  else
    none

/-- The scan loop of `flashheap_free` (source lines 53-69).  State is
`(prev_addr, prev_packet.size, addr, packet.size)`; the C source leaves
`packet` uninitialised before the loop, which only matters when the loop body
never runs (`size ≤ 0`), and the initial value `0` stands for that
indeterminate stack value.  Returns `none` on a read fault (or on fuel
exhaustion, which cannot happen with the fuel the wrapper passes when
`1 ≤ hsize`), otherwise the state at loop exit or break. -/
def freeScanLoop (heap : Heap) (desired : Int) :
    Nat → Int × Int × Int × Int → Option (Int × Int × Int × Int)
  | 0, _ => none
  | fuel + 1, (prevAddr, prevSize, addr, packet) =>
    if addr < heap.offset + heap.size then
      match flashheap_packet_read heap addr with
      | none => none
      | some p =>
        if addr = desired then some (prevAddr, prevSize, addr, p)
        else freeScanLoop heap desired fuel (addr, p, addr + (|p| + heap.hsize), p)
    else
      some (prevAddr, prevSize, addr, packet)

/-- The merged header value of the coalescing case analysis of
`flashheap_free` (source lines 83-100): `packet1` is the already negated
header of the packet being freed. -/
def freeMergeVal (hsize prevSize packet1 nextSize : Int) : Int :=
  if prevSize < 0 ∧ nextSize < 0 then packet1 + prevSize + nextSize - 2 * hsize
  else if nextSize < 0 then packet1 + nextSize - hsize
  else if prevSize < 0 then packet1 + prevSize - hsize
  else packet1

/-- The address the merged header of `flashheap_free` is written to (source
lines 88 and 99 reassign `addr` to `prev_addr` in the cases that merge with
the preceding packet). -/
def freeMergeAddr (prevAddr addr prevSize nextSize : Int) : Int :=
  if prevSize < 0 ∧ nextSize < 0 then prevAddr
  else if nextSize < 0 then addr
  else if prevSize < 0 then prevAddr
  else addr

/-- The straight-line tail of `flashheap_free` after the scan loop (source
lines 72-106): the not-found and double-free checks, the negation of the
header, the read of the following header, the coalescing case analysis, and
the single final write. -/
def freeAfterScan (heap : Heap) (ptr prevAddr prevSize addr packet0 : Int) :
    Bool × Heap :=
  if addr ≠ ptr then (false, heap)
  else if packet0 < 0 then (false, heap)
  else
    match flashheap_packet_read heap (addr + (|(-packet0)| + heap.hsize)) with
    | none => (false, heap)
    | some nextSize =>
      match flashheap_write heap (freeMergeAddr prevAddr addr prevSize nextSize)
          (freeMergeVal heap.hsize prevSize (-packet0) nextSize) with
      | none => (false, heap)
      | some heap2 => (true, heap2)

/-- `flashheap_free` (source lines 41-107): scan for the packet starting at
`ptr`, fail if not found or already free, negate its header, read the
following header, coalesce with free neighbours, and write the single merged
header.  Returns the success flag and the resulting heap. -/
def flashheap_free (heap : Heap) (ptr : Int) : Bool × Heap :=
  match freeScanLoop heap ptr (heap.size.toNat + 1) (0, 0, heap.offset, 0) with
  | none => (false, heap)
  | some (prevAddr, prevSize, addr, packet0) =>
    freeAfterScan heap ptr prevAddr prevSize addr packet0

/-- The scan loop of `flashheap_alloc` (source lines 116-149): first fit, with
the split of a larger free packet (write the remainder's free header first,
then the allocated header).  Returns the allocated address (or `none`) and the
resulting heap; a failed second write of the split leaves the first write in
place, exactly as in the source. -/
def allocLoop (heap : Heap) (size : Int) : Nat → Int → Option Int × Heap
  | 0, _ => (none, heap)
  | fuel + 1, addr =>
    if addr < heap.offset + heap.size then
      match flashheap_packet_read heap addr with
      | none => (none, heap)
      | some p =>
        if p < 0 ∧ size ≤ -p then
          match
            (if size ≠ -p then
              flashheap_write heap (addr + heap.hsize + size)
                (-(-p - size - heap.hsize))
            else some heap) with
          | none => (none, heap)
          | some heap1 =>
            match flashheap_write heap1 addr size with
            | none => (none, heap1)
            | some heap2 => (some addr, { heap2 with last := addr })
        else
          allocLoop heap size fuel (addr + (|p| + heap.hsize))
    else
      (none, heap)

/-- `flashheap_alloc` (source lines 110-153). -/
def flashheap_alloc (heap : Heap) (size : Int) : Option Int × Heap :=
  allocLoop heap size (heap.size.toNat + 1) heap.offset

/-- `flashheap_walk` (source lines 157-173) specialised to the
`flashheap_alloc_p` callback (source lines 176-184), which records the current
address and terminates on the first packet whose header is `≥ 0`.  Returns the
address of that packet, or `none` on read fault or when the region is
exhausted (the C source conflates both in the `NULL` return). -/
def walkAllocP (heap : Heap) : Nat → Int → Option Int
  | 0, _ => none
  | fuel + 1, addr =>
    if addr < heap.offset + heap.size then
      match flashheap_packet_read heap addr with
      | none => none
      | some p =>
        if 0 ≤ p then some addr
        else walkAllocP heap fuel (addr + (|p| + heap.hsize))
    else
      none

/-- `flashheap_alloc_first` (source lines 187-196). -/
def flashheap_alloc_first (heap : Heap) : Option Int :=
  walkAllocP heap (heap.size.toNat + 1) heap.offset

/-- `flashheap_alloc_next` (source lines 199-219).  Note the advance is by
`abs (packet.size)` only, without `sizeof (packet)` (source line 213). -/
def flashheap_alloc_next (heap : Heap) (ptr : Int) : Option Int :=
  if ptr = 0 then flashheap_alloc_first heap
  else
    match flashheap_packet_read heap ptr with
    | none => none
    | some p => walkAllocP heap (heap.size.toNat + 1) (ptr + |p|)

/-- `flashheap_alloc_size` (source lines 222-237). -/
def flashheap_alloc_size (heap : Heap) (ptr : Int) : Int :=
  match flashheap_packet_read heap ptr with
  | none => 0
  | some p => if p < 0 then 0 else p

/-- `flashheap_erase` (source lines 273-286): write one free header spanning
the region. -/
def flashheap_erase (heap : Heap) : Bool × Heap :=
  match flashheap_write heap heap.offset (-(heap.size - heap.hsize)) with
  | none => (false, heap)
  | some heap2 => (true, heap2)

/-- `flashheap_init` (source lines 289-306): bind the device and region to a
heap instance (`last` is the static zero-initialised field). -/
def flashheap_init (offset size : Int) (mem : Int → Int)
    (readOK writeOK : Int → Bool) (hsize : Int) : Heap :=
  { mem := mem, readOK := readOK, writeOK := writeOK,
    offset := offset, size := size, last := 0, hsize := hsize }

/-! ## The packet layout of a region

`layoutAt mem hsize l addr stop` says the headers listed in `l` tile the
address range `[addr, stop)`: each packet starts where the previous one ended,
the walk step being `header_size + |header|`, and the walk from `addr` lands
exactly on `stop`. -/

/-- The list `l` of headers tiles `[addr, stop)` exactly. -/
def layoutAt (mem : Int → Int) (hsize : Int) : List Int → Int → Int → Prop
  | [], addr, stop => addr = stop
  | p :: l, addr, stop => mem addr = p ∧ layoutAt mem hsize l (addr + (|p| + hsize)) stop

instance layoutAtDec (mem : Int → Int) (hsize : Int) :
    ∀ (l : List Int) (addr stop : Int), Decidable (layoutAt mem hsize l addr stop)
  | [], addr, stop => inferInstanceAs (Decidable (addr = stop))
  | p :: l, addr, stop =>
    have : Decidable (layoutAt mem hsize l (addr + (|p| + hsize)) stop) :=
      layoutAtDec mem hsize l (addr + (|p| + hsize)) stop
    inferInstanceAs (Decidable (_ ∧ _))

/-- The total walk length of a header list. -/
def walkLen (hsize : Int) : List Int → Int
  | [] => 0
  | p :: l => |p| + hsize + walkLen hsize l

/-- The start addresses of the packets of a header list laid out from `addr`. -/
def packetAddrs (hsize : Int) : List Int → Int → List Int
  | [], _ => []
  | p :: l, addr => addr :: packetAddrs hsize l (addr + (|p| + hsize))

/-- The `(prev_addr, prev_packet.size)` pair the free scan holds after walking
past the packets of `l` starting from `addr`, with initial pair `(pa, ps)`. -/
def prevOf (hsize : Int) : List Int → Int → Int → Int → Int × Int
  | [], pa, ps, _ => (pa, ps)
  | q :: l, _, _, addr => prevOf hsize l addr q (addr + (|q| + hsize))

/-- The whole heap region is tiled by the packets `l`. -/
def Tiled (h : Heap) (l : List Int) : Prop :=
  layoutAt h.mem h.hsize l h.offset (h.offset + h.size)

/-- No free packet is directly adjacent to another free packet. -/
def NoAdjacentFree (l : List Int) : Prop :=
  l.Chain' (fun p q => 0 ≤ p ∨ 0 ≤ q)

/-- Executable check for `NoAdjacentFree`. -/
def nafB : List Int → Bool
  | [] => true
  | [_] => true
  | p :: q :: l => (decide (0 ≤ p) || decide (0 ≤ q)) && nafB (q :: l)

theorem naf_iff : ∀ l : List Int, NoAdjacentFree l ↔ nafB l = true
  | [] => by simp [NoAdjacentFree, nafB]
  | [p] => by simp [NoAdjacentFree, nafB]
  | p :: q :: l => by
    have ih := naf_iff (q :: l)
    rw [NoAdjacentFree, List.chain'_cons]
    rw [NoAdjacentFree] at ih
    rw [ih]
    simp [nafB]

instance (l : List Int) : Decidable (NoAdjacentFree l) :=
  decidable_of_iff _ (naf_iff l).symm

/-! ## Basic layout lemmas -/

theorem layoutAt_nil (mem : Int → Int) (hsize addr stop : Int) :
    layoutAt mem hsize [] addr stop ↔ addr = stop := Iff.rfl

theorem layoutAt_cons (mem : Int → Int) (hsize addr stop p : Int) (l : List Int) :
    layoutAt mem hsize (p :: l) addr stop ↔
      mem addr = p ∧ layoutAt mem hsize l (addr + (|p| + hsize)) stop := Iff.rfl

theorem walkLen_nonneg (hsize : Int) (h1 : 0 ≤ hsize) :
    ∀ l : List Int, 0 ≤ walkLen hsize l
  | [] => le_refl 0
  | p :: l => by
    have := walkLen_nonneg hsize h1 l
    have := abs_nonneg p
    simp only [walkLen]
    omega

theorem layoutAt_total (mem : Int → Int) (hsize : Int) :
    ∀ (l : List Int) (addr stop : Int), layoutAt mem hsize l addr stop →
      addr + walkLen hsize l = stop
  | [], addr, stop, h => by simpa [walkLen] using h
  | p :: l, addr, stop, h => by
    have := layoutAt_total mem hsize l (addr + (|p| + hsize)) stop h.2
    simp only [walkLen]
    omega

theorem layoutAt_le (mem : Int → Int) (hsize : Int) (h1 : 0 ≤ hsize)
    (l : List Int) (addr stop : Int) (h : layoutAt mem hsize l addr stop) :
    addr ≤ stop := by
  have := layoutAt_total mem hsize l addr stop h
  have := walkLen_nonneg hsize h1 l
  omega

theorem layoutAt_head_lt (mem : Int → Int) (hsize : Int) (h1 : 1 ≤ hsize)
    (p : Int) (l : List Int) (addr stop : Int)
    (h : layoutAt mem hsize (p :: l) addr stop) : addr < stop := by
  have h2 := layoutAt_le mem hsize (by omega) l (addr + (|p| + hsize)) stop h.2
  have := abs_nonneg p
  omega

theorem layoutAt_append (mem : Int → Int) (hsize : Int) :
    ∀ (l₁ l₂ : List Int) (addr stop : Int),
      layoutAt mem hsize (l₁ ++ l₂) addr stop ↔
        layoutAt mem hsize l₁ addr (addr + walkLen hsize l₁) ∧
          layoutAt mem hsize l₂ (addr + walkLen hsize l₁) stop
  | [], l₂, addr, stop => by simp [layoutAt, walkLen]
  | p :: l₁, l₂, addr, stop => by
    have ih := layoutAt_append mem hsize l₁ l₂ (addr + (|p| + hsize)) stop
    have harr : addr + (|p| + hsize + walkLen hsize l₁)
        = addr + (|p| + hsize) + walkLen hsize l₁ := by ring
    simp only [List.cons_append, layoutAt, walkLen, harr, List.append_eq, ih, and_assoc]

theorem layoutAt_update_low (mem : Int → Int) (hsize : Int) (h0 : 0 ≤ hsize) (b v : Int) :
    ∀ (l : List Int) (addr stop : Int), layoutAt mem hsize l addr stop →
      b < addr → layoutAt (memUpd mem b v) hsize l addr stop
  | [], _, _, h, _ => h
  | p :: l, addr, stop, h, hb => by
    have habs := abs_nonneg p
    refine ⟨?_, layoutAt_update_low mem hsize h0 b v l _ stop h.2 (by omega)⟩
    simp only [memUpd]
    rw [if_neg (by omega)]
    exact h.1

theorem layoutAt_update_high (mem : Int → Int) (hsize : Int) (h1 : 1 ≤ hsize) (b v : Int) :
    ∀ (l : List Int) (addr stop : Int), layoutAt mem hsize l addr stop →
      stop ≤ b → layoutAt (memUpd mem b v) hsize l addr stop
  | [], _, _, h, _ => h
  | p :: l, addr, stop, h, hb => by
    have hlt := layoutAt_le mem hsize (by omega) l _ stop h.2
    have habs := abs_nonneg p
    refine ⟨?_, layoutAt_update_high mem hsize h1 b v l _ stop h.2 hb⟩
    simp only [memUpd]
    rw [if_neg (by omega)]
    exact h.1

theorem layoutAt_length_le (mem : Int → Int) (hsize : Int) (h1 : 1 ≤ hsize) :
    ∀ (l : List Int) (addr stop : Int), layoutAt mem hsize l addr stop →
      l.length ≤ (stop - addr).toNat
  | [], _, _, _ => by simp
  | p :: l, addr, stop, h => by
    have ih := layoutAt_length_le mem hsize h1 l _ stop h.2
    have hle := layoutAt_le mem hsize (by omega) l _ stop h.2
    have habs := abs_nonneg p
    simp only [List.length_cons]
    omega

/-- A single header write that replaces the segment between two intact layout
pieces: if `A` tiles `[o, waddr)` and `B` tiles `[nb, stop)`, and the new
header `w` at `waddr` steps exactly to `nb`, then after writing `w` at `waddr`
the list `A ++ w :: B` tiles `[o, stop)`. -/
theorem layout_replace (mem : Int → Int) (hsize : Int) (h1 : 1 ≤ hsize)
    (A B : List Int) (o waddr nb stop w : Int)
    (hA : layoutAt mem hsize A o waddr) (hB : layoutAt mem hsize B nb stop)
    (hstep : waddr + (|w| + hsize) = nb) :
    layoutAt (memUpd mem waddr w) hsize (A ++ w :: B) o stop := by
  have htot := layoutAt_total mem hsize A o waddr hA
  rw [layoutAt_append]
  rw [htot]
  refine ⟨layoutAt_update_high mem hsize h1 waddr w A o waddr hA (le_refl _), ?_, ?_⟩
  · simp [memUpd]
  · have habs := abs_nonneg w
    rw [hstep]
    exact layoutAt_update_low mem hsize (by omega) waddr w B nb stop hB (by omega)

/-! ## Effects of single operations on the heap record -/

theorem flashheap_write_some (h h2 : Heap) (a v : Int)
    (hw : flashheap_write h a v = some h2) :
    h2.mem = memUpd h.mem a v ∧ h2.readOK = h.readOK ∧ h2.writeOK = h.writeOK ∧
      h2.offset = h.offset ∧ h2.size = h.size ∧ h2.last = h.last ∧
      h2.hsize = h.hsize ∧ h.writeOK a = true := by
  unfold flashheap_write at hw
  by_cases hb : h.writeOK a = true
  · rw [if_pos hb] at hw
    injection hw with hw
    subst hw
    simp [hb]
  · rw [if_neg hb] at hw
    cases hw

theorem flashheap_read_some (h : Heap) (a p : Int)
    (hr : flashheap_packet_read h a = some p) :
    h.readOK a = true ∧ h.mem a = p := by
  unfold flashheap_packet_read at hr
  by_cases hb : h.readOK a = true
  · rw [if_pos hb] at hr
    injection hr with hr
    exact ⟨hb, hr⟩
  · rw [if_neg hb] at hr
    cases hr

/-- The straight-line tail of free changes the store at one address on
success and leaves the heap untouched on failure. -/
theorem freeAfterScan_atomic (h : Heap) (ptr pa ps a2 pk : Int) :
    ((freeAfterScan h ptr pa ps a2 pk).1 = false →
      (freeAfterScan h ptr pa ps a2 pk).2 = h) ∧
    ((freeAfterScan h ptr pa ps a2 pk).1 = true →
      ∃ a v, (freeAfterScan h ptr pa ps a2 pk).2.mem = memUpd h.mem a v) := by
  unfold freeAfterScan
  by_cases h1 : a2 ≠ ptr
  · rw [if_pos h1]
    exact ⟨fun _ => rfl, fun hc => nomatch hc⟩
  · rw [if_neg h1]
    by_cases h2 : pk < 0
    · rw [if_pos h2]
      exact ⟨fun _ => rfl, fun hc => nomatch hc⟩
    · rw [if_neg h2]
      rcases hr : flashheap_packet_read h (a2 + (|(-pk)| + h.hsize)) with _ | nv
      · exact ⟨fun _ => rfl, fun hc => nomatch hc⟩
      · dsimp only
        rcases hw : flashheap_write h (freeMergeAddr pa a2 ps nv)
            (freeMergeVal h.hsize ps (-pk) nv) with _ | h3
        · dsimp only
          refine ⟨fun _ => rfl, fun hc => nomatch hc⟩
        · dsimp only
          exact ⟨fun hc => (nomatch hc),
            fun _ => ⟨_, _, (flashheap_write_some h h3 _ _ hw).1⟩⟩

/-- C9: free is failure-atomic — every failing outcome leaves the heap exactly
as it was, and a successful free changes the store at exactly one address (the
single final write of the possibly-merged free header); a negated but not yet
coalesced header is never stored. -/
theorem flashheap_free_atomic (h : Heap) (d : Int) :
    ((flashheap_free h d).1 = false → (flashheap_free h d).2 = h) ∧
    ((flashheap_free h d).1 = true →
      ∃ a v, (flashheap_free h d).2.mem = memUpd h.mem a v) := by
  unfold flashheap_free
  rcases freeScanLoop h d (h.size.toNat + 1) (0, 0, h.offset, 0) with _ | ⟨pa, ps, a2, pk⟩
  · exact ⟨fun _ => rfl, fun hc => nomatch hc⟩
  · exact freeAfterScan_atomic h d pa ps a2 pk

/-- Concrete heap for exercising `flashheap_free` failure paths: a single free
packet of magnitude 2 tiling the region `[10, 14)` with `hsize = 2`. -/
def heapFree1 : Heap :=
  { mem := fun a => if a = 10 then -2 else 0,
    readOK := fun _ => true, writeOK := fun _ => true,
    offset := 10, size := 4, last := 0, hsize := 2 }

/-- Witness for C9 at a concrete input: freeing address 11 (not a packet
start) fails and leaves the heap unchanged. -/
theorem flashheap_free_atomic_witness :
    (flashheap_free heapFree1 11).2 = heapFree1 :=
  (flashheap_free_atomic heapFree1 11).1 (by decide)

/-! ## C6 / C7: concrete heaps exhibiting the two code bugs -/

/-- Heap for C6: one allocated packet of payload 2 tiling `[10, 14)`
(`hsize = 2`), fault-free device, all storage outside the packet zero. -/
def heapC6 : Heap :=
  { mem := fun a => if a = 10 then 2 else 0,
    readOK := fun _ => true, writeOK := fun _ => true,
    offset := 10, size := 4, last := 0, hsize := 2 }

/-- C6 failing input: address 14 (`offset + size`) is not the start of any
packet — the only packet starts at 10 — yet `flashheap_free` returns success
(the stale `packet` variable from the last loop iteration passes the
`addr != desired` and `packet.size < 0` checks) and writes a bogus free
header at 14, outside the region. -/
theorem free_not_found_bug :
    layoutAt heapC6.mem 2 [2] 10 14 ∧
    (14 : Int) ∉ packetAddrs 2 [2] 10 ∧
    (flashheap_free heapC6 14).1 = true ∧
    (flashheap_free heapC6 14).2.mem 14 = -2 := by decide

/-- Heap for C7: an allocated packet (payload 3) at 10 followed by a free
packet (payload 3) at 15, tiling `[10, 20)` with `hsize = 2`; the payload
byte at address 13 reads as header value 0. -/
def heapC7 : Heap :=
  { mem := fun a => if a = 10 then 3 else if a = 15 then -3 else 0,
    readOK := fun _ => true, writeOK := fun _ => true,
    offset := 10, size := 10, last := 0, hsize := 2 }

/-- C7 failing input: the only allocated packet is at 10 (15 is free), so the
iteration should yield 10 and then none; instead `flashheap_alloc_next 10`
advances by `abs (packet.size)` only — without `sizeof (packet)` (source line
213) — lands inside packet 10's payload at 13, reads garbage there, and
returns 13, an address that is not a packet start at all. -/
theorem alloc_next_missing_header_bug :
    layoutAt heapC7.mem 2 [3, -3] 10 20 ∧
    heapC7.mem 15 < 0 ∧
    flashheap_alloc_first heapC7 = some 10 ∧
    flashheap_alloc_next heapC7 10 = some 13 ∧
    (13 : Int) ∉ packetAddrs 2 [3, -3] 10 := by decide

/-! ## Characterisation of a successful allocation -/

/-- If the alloc scan returns an address, then that address held a free packet
whose capacity fits the request, and the resulting store is the original one
updated by the split write (when the fit is not exact) followed by the
allocated-header write. -/
theorem allocLoop_some (h : Heap) (s : Int) :
    ∀ (fuel : Nat) (addr a : Int) (h2 : Heap),
      allocLoop h s fuel addr = (some a, h2) →
      h.readOK a = true ∧ h.mem a < 0 ∧ s ≤ -(h.mem a) ∧
      h2.readOK = h.readOK ∧ h2.writeOK = h.writeOK ∧ h2.offset = h.offset ∧
      h2.size = h.size ∧ h2.hsize = h.hsize ∧ h2.last = a ∧
      h.writeOK a = true ∧
      ((s = -(h.mem a) ∧ h2.mem = memUpd h.mem a s) ∨
        (s ≠ -(h.mem a) ∧ h.writeOK (a + h.hsize + s) = true ∧
          h2.mem = memUpd (memUpd h.mem (a + h.hsize + s)
            (-(-(h.mem a) - s - h.hsize))) a s)) := by
  intro fuel
  induction fuel with
  | zero =>
    intro addr a h2 heq
    rw [allocLoop] at heq
    injection heq with e1 e2
    exact Option.noConfusion e1
  | succ fuel ih =>
    intro addr a h2 heq
    rw [allocLoop] at heq
    by_cases hin : addr < h.offset + h.size
    · rw [if_pos hin] at heq
      rcases hrd : flashheap_packet_read h addr with _ | p
      · rw [hrd] at heq
        dsimp only at heq
        injection heq with e1 e2
        exact Option.noConfusion e1
      · rw [hrd] at heq
        dsimp only at heq
        obtain ⟨hrok, hmem⟩ := flashheap_read_some h addr p hrd
        by_cases hfit : p < 0 ∧ s ≤ -p
        · rw [if_pos hfit] at heq
          by_cases hex : s ≠ -p
          · rw [if_pos hex] at heq
            rcases hw1 : flashheap_write h (addr + h.hsize + s)
                (-(-p - s - h.hsize)) with _ | hh1
            · rw [hw1] at heq
              dsimp only at heq
              injection heq with e1 e2
              exact Option.noConfusion e1
            · rw [hw1] at heq
              dsimp only at heq
              rcases hw2 : flashheap_write hh1 addr s with _ | hh2
              · rw [hw2] at heq
                dsimp only at heq
                injection heq with e1 e2
                exact Option.noConfusion e1
              · rw [hw2] at heq
                dsimp only at heq
                injection heq with e1 e2
                injection e1 with e1
                subst e1
                subst e2
                obtain ⟨m1, r1, w1, o1, s1, l1, z1, k1⟩ :=
                  flashheap_write_some h hh1 _ _ hw1
                obtain ⟨m2, r2, w2, o2, s2, l2, z2, k2⟩ :=
                  flashheap_write_some hh1 hh2 _ _ hw2
                rw [hmem]
                refine ⟨hrok, hfit.1, hfit.2, ?_, ?_, ?_, ?_, ?_, rfl, ?_, ?_⟩
                · show hh2.readOK = h.readOK
                  rw [r2, r1]
                · show hh2.writeOK = h.writeOK
                  rw [w2, w1]
                · show hh2.offset = h.offset
                  rw [o2, o1]
                · show hh2.size = h.size
                  rw [s2, s1]
                · show hh2.hsize = h.hsize
                  rw [z2, z1]
                · rw [w1] at k2
                  exact k2
                · right
                  refine ⟨hex, k1, ?_⟩
                  show hh2.mem = _
                  rw [m2, m1]
          · rw [if_neg hex] at heq
            dsimp only at heq
            rcases hw2 : flashheap_write h addr s with _ | hh2
            · rw [hw2] at heq
              dsimp only at heq
              injection heq with e1 e2
              exact Option.noConfusion e1
            · rw [hw2] at heq
              dsimp only at heq
              injection heq with e1 e2
              injection e1 with e1
              subst e1
              subst e2
              obtain ⟨m2, r2, w2, o2, s2, l2, z2, k2⟩ :=
                flashheap_write_some h hh2 _ _ hw2
              rw [hmem]
              push_neg at hex
              refine ⟨hrok, hfit.1, hfit.2, ?_, ?_, ?_, ?_, ?_, rfl, k2, ?_⟩
              · show hh2.readOK = h.readOK
                rw [r2]
              · show hh2.writeOK = h.writeOK
                rw [w2]
              · show hh2.offset = h.offset
                rw [o2]
              · show hh2.size = h.size
                rw [s2]
              · show hh2.hsize = h.hsize
                rw [z2]
              · left
                exact ⟨hex, m2⟩
        · rw [if_neg hfit] at heq
          exact ih _ a h2 heq
    · rw [if_neg hin] at heq
      injection heq with e1 e2
      exact Option.noConfusion e1

/-- C8: exact-size allocation — a successful `alloc` of a non-negative size
yields an address at which `alloc_size`, on the resulting heap, returns
exactly that size; and `alloc_size` returns the payload length of an
allocated header, and 0 on a free or unreadable header. -/
theorem alloc_size_exact (h : Heap) (s a : Int) (h2 : Heap)
    (hs : 0 ≤ s) (ha : flashheap_alloc h s = (some a, h2)) :
    flashheap_alloc_size h2 a = s ∧
    (∀ (g : Heap) (b : Int),
      (g.readOK b = false → flashheap_alloc_size g b = 0) ∧
      (g.mem b < 0 → flashheap_alloc_size g b = 0) ∧
      (g.readOK b = true → 0 ≤ g.mem b → flashheap_alloc_size g b = g.mem b)) := by
  constructor
  · obtain ⟨hrok, _, _, hre, _, _, _, _, _, _, hcases⟩ :=
      allocLoop_some h s (h.size.toNat + 1) h.offset a h2 ha
    have hm2 : h2.mem a = s := by
      rcases hcases with ⟨_, hm⟩ | ⟨_, _, hm⟩ <;> rw [hm] <;> simp [memUpd]
    unfold flashheap_alloc_size flashheap_packet_read
    rw [hre, hrok, if_pos rfl, hm2]
    dsimp only
    rw [if_neg (by omega)]
  · intro g b
    refine ⟨?_, ?_, ?_⟩
    · intro hro
      unfold flashheap_alloc_size flashheap_packet_read
      rw [hro]
      simp
    · intro hneg
      unfold flashheap_alloc_size flashheap_packet_read
      by_cases hro : g.readOK b = true
      · rw [hro, if_pos rfl]
        dsimp only
        rw [if_pos hneg]
      · simp only [Bool.not_eq_true] at hro
        rw [hro]
        simp
    · intro hro hnn
      unfold flashheap_alloc_size flashheap_packet_read
      rw [hro, if_pos rfl]
      dsimp only
      rw [if_neg (by omega)]

/-- Witness for C8: on the concrete single-free-packet heap, allocating 2
succeeds at address 10 and `alloc_size` of the result is 2. -/
theorem alloc_size_exact_witness :
    flashheap_alloc_size (flashheap_alloc heapFree1 2).2 10 = 2 :=
  (alloc_size_exact heapFree1 2 10 (flashheap_alloc heapFree1 2).2
    (by decide) rfl).1

/-! ## C3: split correctness -/

/-- Heap for the C3 counterexample: one free packet of capacity 5 tiling
`[10, 17)` with `hsize = 2`, fault-free device. -/
def heapC3 : Heap :=
  { mem := fun a => if a = 10 then -5 else 0,
    readOK := fun _ => true, writeOK := fun _ => true,
    offset := 10, size := 7, last := 0, hsize := 2 }

/-- C3 counterexample: allocating 4 from a free packet of capacity `C = 5 > 4`
succeeds, but the header written at `address + header_size + size = 16` is
`+1` — an allocated header, not a free-packet header, and its magnitude is not
`C - size - header_size = -1` (no header has a negative magnitude).  The claim
fails whenever `size < C < size + header_size`. -/
theorem alloc_split_negative_remainder :
    layoutAt heapC3.mem 2 [-5] 10 17 ∧
    (flashheap_alloc heapC3 4).1 = some 10 ∧
    (flashheap_alloc heapC3 4).2.mem 16 = 1 ∧
    ¬((flashheap_alloc heapC3 4).2.mem 16 < 0) := by decide

/-- C3 amended: if the selected free packet's capacity `C` exceeds
`size + header_size` (so the split remainder is positive) and `0 < size`, a
successful alloc writes the allocated header `size` at the chosen address and
a free-packet header of magnitude `C - size - header_size` at
`address + header_size + size`. -/
theorem alloc_split_correct (h : Heap) (s a : Int) (h2 : Heap)
    (h1 : 1 ≤ h.hsize) (hs : 0 < s)
    (ha : flashheap_alloc h s = (some a, h2))
    (hcap : s + h.hsize < -(h.mem a)) :
    h2.mem a = s ∧ 0 < s ∧
    h2.mem (a + h.hsize + s) = -(-(h.mem a) - s - h.hsize) ∧
    h2.mem (a + h.hsize + s) < 0 := by
  obtain ⟨_, hneg, hfit, _, _, _, _, _, _, _, hcases⟩ :=
    allocLoop_some h s (h.size.toNat + 1) h.offset a h2 ha
  rcases hcases with ⟨hex, _⟩ | ⟨_, _, hm⟩
  · omega
  · have hne : a + h.hsize + s ≠ a := by omega
    have hma : h2.mem a = s := by rw [hm]; simp [memUpd]
    have hmn : h2.mem (a + h.hsize + s) = -(-(h.mem a) - s - h.hsize) := by
      rw [hm]
      simp [memUpd, hne]
    exact ⟨hma, hs, hmn, by omega⟩

/-- Heap for the C3 witness: one free packet of capacity 8 tiling `[10, 20)`
with `hsize = 2`. -/
def heapC3w : Heap :=
  { mem := fun a => if a = 10 then -8 else 0,
    readOK := fun _ => true, writeOK := fun _ => true,
    offset := 10, size := 10, last := 0, hsize := 2 }

/-- Witness for the amended C3: allocating 3 from the capacity-8 free packet
leaves the allocated header 3 at 10 and the free header −3 at 15. -/
theorem alloc_split_correct_witness :
    (flashheap_alloc heapC3w 3).2.mem 10 = 3 ∧ (0 : Int) < 3 ∧
    (flashheap_alloc heapC3w 3).2.mem (10 + 2 + 3) = -(-(heapC3w.mem 10) - 3 - 2) ∧
    (flashheap_alloc heapC3w 3).2.mem (10 + 2 + 3) < 0 := by
  have := alloc_split_correct heapC3w 3 10 (flashheap_alloc heapC3w 3).2
    (by decide) (by decide) rfl (by decide)
  simpa using this

/-! ## C4: erase / alloc / free round trip -/

theorem flashheap_read_eq (h : Heap) (addr : Int) (hro : h.readOK addr = true) :
    flashheap_packet_read h addr = some (h.mem addr) := by
  unfold flashheap_packet_read
  rw [hro]
  simp

theorem flashheap_erase_some (h h2 : Heap) (he : flashheap_erase h = (true, h2)) :
    h2.mem = memUpd h.mem h.offset (-(h.size - h.hsize)) ∧
    h2.readOK = h.readOK ∧ h2.writeOK = h.writeOK ∧ h2.offset = h.offset ∧
    h2.size = h.size ∧ h2.last = h.last ∧ h2.hsize = h.hsize ∧
    h.writeOK h.offset = true := by
  unfold flashheap_erase at he
  rcases hw : flashheap_write h h.offset (-(h.size - h.hsize)) with _ | hh
  · rw [hw] at he
    cases he
  · rw [hw] at he
    injection he with e1 e2
    rw [← e2]
    exact flashheap_write_some h hh _ _ hw

/-- When the packet at the scan's current address already fits, a successful
alloc returns that very address. -/
theorem allocLoop_start_fit (h : Heap) (s : Int) (fuel : Nat) (addr a : Int)
    (h2 : Heap) (hin : addr < h.offset + h.size)
    (hneg : h.mem addr < 0) (hfit : s ≤ -(h.mem addr))
    (heq : allocLoop h s (fuel + 1) addr = (some a, h2)) : a = addr := by
  rw [allocLoop, if_pos hin] at heq
  rcases hrd : flashheap_packet_read h addr with _ | p
  · rw [hrd] at heq
    dsimp only at heq
    injection heq with e1 e2
    exact Option.noConfusion e1
  obtain ⟨hro2, hmem2⟩ := flashheap_read_some h addr p hrd
  subst hmem2
  rw [hrd] at heq
  dsimp only at heq
  rw [if_pos ⟨hneg, hfit⟩] at heq
  by_cases hex : s ≠ -(h.mem addr)
  · rw [if_pos hex] at heq
    rcases hw1 : flashheap_write h (addr + h.hsize + s)
        (-(-(h.mem addr) - s - h.hsize)) with _ | hh1
    · rw [hw1] at heq
      dsimp only at heq
      injection heq with e1 e2
      exact Option.noConfusion e1
    · rw [hw1] at heq
      dsimp only at heq
      rcases hw2 : flashheap_write hh1 addr s with _ | hh2
      · rw [hw2] at heq
        dsimp only at heq
        injection heq with e1 e2
        exact Option.noConfusion e1
      · rw [hw2] at heq
        dsimp only at heq
        injection heq with e1 e2
        injection e1 with e1
        exact e1.symm
  · rw [if_neg hex] at heq
    dsimp only at heq
    rcases hw2 : flashheap_write h addr s with _ | hh2
    · rw [hw2] at heq
      dsimp only at heq
      injection heq with e1 e2
      exact Option.noConfusion e1
    · rw [hw2] at heq
      dsimp only at heq
      injection heq with e1 e2
      injection e1 with e1
      exact e1.symm

/-- The free scan breaks immediately when the requested address is the scan's
current address. -/
theorem freeScanLoop_start (h : Heap) (d : Int) (fuel : Nat) (pa ps pk : Int)
    (hin : d < h.offset + h.size) :
    freeScanLoop h d (fuel + 1) (pa, ps, d, pk)
      = (flashheap_packet_read h d).map (fun p => (pa, ps, d, p)) := by
  simp only [freeScanLoop, if_pos hin]
  rcases flashheap_packet_read h d with _ | p
  · rfl
  · simp

/-- The free scan fails immediately when the requested address is the scan's
current address but the read there faults. -/
theorem freeScanLoop_start_none (h : Heap) (d : Int) (fuel : Nat) (pa ps pk : Int)
    (hin : d < h.offset + h.size) (hro : h.readOK d = false) :
    freeScanLoop h d (fuel + 1) (pa, ps, d, pk) = none := by
  rw [freeScanLoop_start h d fuel pa ps pk hin]
  unfold flashheap_packet_read
  rw [hro]
  rfl

/-- The free scan breaks with the packet's header when the requested address
is the scan's current address and the read succeeds. -/
theorem freeScanLoop_start_some (h : Heap) (d : Int) (fuel : Nat) (pa ps pk : Int)
    (hin : d < h.offset + h.size) (hro : h.readOK d = true) :
    freeScanLoop h d (fuel + 1) (pa, ps, d, pk) = some (pa, ps, d, h.mem d) := by
  rw [freeScanLoop_start h d fuel pa ps pk hin, flashheap_read_eq h d hro]
  rfl

/-- C4 amended: for `0 ≤ size < region_size - 2·header_size` (strictly), a
successful erase, then alloc(size), then free of the returned address leaves
the region tiled by the single free packet of magnitude
`size_of_region - header_size`, exactly as after a fresh erase. -/
theorem erase_alloc_free_round_trip (h0 h1 h2 h3 : Heap) (s a : Int)
    (hhs : 1 ≤ h0.hsize) (hs0 : 0 ≤ s) (hlt : s < h0.size - 2 * h0.hsize)
    (he : flashheap_erase h0 = (true, h1))
    (ha : flashheap_alloc h1 s = (some a, h2))
    (hf : flashheap_free h2 a = (true, h3)) :
    a = h0.offset ∧ h3.mem h0.offset = -(h0.size - h0.hsize) ∧
    Tiled h3 [-(h0.size - h0.hsize)] := by
  obtain ⟨em, er, ew, eo, es, el, ez, ewo⟩ := flashheap_erase_some h0 h1 he
  have hval : h1.mem h0.offset = -(h0.size - h0.hsize) := by
    rw [em]; simp [memUpd]
  -- the allocation happens at the offset
  unfold flashheap_alloc at ha
  have ha' := ha
  rw [eo] at ha'
  have haddr : a = h0.offset := by
    refine allocLoop_start_fit h1 s (h1.size.toNat) h0.offset a h2 ?_ ?_ ?_ ha'
    · rw [eo, es]; omega
    · rw [hval]; omega
    · rw [hval]; omega
  subst haddr
  obtain ⟨_, _, _, ar, aw, ao, asz, az, al, _, hcases⟩ :=
    allocLoop_some h1 s (h1.size.toNat + 1) h1.offset h0.offset h2 ha
  rcases hcases with ⟨hex, _⟩ | ⟨_, _, hm2⟩
  · rw [hval] at hex; omega
  rw [hval, ez] at hm2
  -- the state after the allocation
  have hm2a : h2.mem h0.offset = s := by rw [hm2]; simp [memUpd]
  have hane : h0.offset + h0.hsize + s ≠ h0.offset := by omega
  have hm2r : h2.mem (h0.offset + h0.hsize + s)
      = -(-(-(h0.size - h0.hsize)) - s - h0.hsize) := by
    rw [hm2]; simp [memUpd, hane]
  -- now evaluate the free
  unfold flashheap_free at hf
  have hin2 : h0.offset < h2.offset + h2.size := by
    rw [ao, eo, asz, es]; omega
  have hsame : h2.offset = h0.offset := by rw [ao, eo]
  rw [hsame] at hf
  by_cases hro2 : h2.readOK h0.offset = true
  · rw [freeScanLoop_start_some h2 h0.offset (h2.size.toNat) 0 0 0 hin2 hro2]
      at hf
    dsimp only at hf
    rw [hm2a] at hf
    unfold freeAfterScan at hf
    rw [if_neg (fun hc => hc rfl), if_neg (by omega : ¬s < 0)] at hf
    have haddr2 : h0.offset + (|(-s)| + h2.hsize) = h0.offset + h0.hsize + s := by
      rw [abs_neg, abs_of_nonneg hs0, az, ez]; ring
    rw [haddr2] at hf
    rcases hrd3 : flashheap_packet_read h2 (h0.offset + h0.hsize + s) with _ | nv
    · rw [hrd3] at hf
      dsimp only at hf
      injection hf with e1 e2
      exact Bool.noConfusion e1
    rw [hrd3] at hf
    dsimp only at hf
    obtain ⟨hro3, hnv⟩ := flashheap_read_some h2 _ nv hrd3
    rw [hm2r] at hnv
    subst hnv
    have hrneg : -(-(-(h0.size - h0.hsize)) - s - h0.hsize) < 0 := by omega
    have hmv : freeMergeVal h2.hsize 0 (-s)
        (-(-(-(h0.size - h0.hsize)) - s - h0.hsize)) = -(h0.size - h0.hsize) := by
      unfold freeMergeVal
      rw [if_neg (by omega : ¬((0 : Int) < 0 ∧
        -(-(-(h0.size - h0.hsize)) - s - h0.hsize) < 0)), if_pos hrneg, az, ez]
      ring
    have hma : freeMergeAddr 0 h0.offset 0
        (-(-(-(h0.size - h0.hsize)) - s - h0.hsize)) = h0.offset := by
      unfold freeMergeAddr
      rw [if_neg (by omega : ¬((0 : Int) < 0 ∧
        -(-(-(h0.size - h0.hsize)) - s - h0.hsize) < 0)), if_pos hrneg]
    rw [hmv, hma] at hf
    rcases hw3 : flashheap_write h2 h0.offset (-(h0.size - h0.hsize)) with _ | hh3
    · rw [hw3] at hf
      dsimp only at hf
      injection hf with e1 e2
      exact Bool.noConfusion e1
    rw [hw3] at hf
    dsimp only at hf
    injection hf with e1 e2
    obtain ⟨m3, r3, w3, o3, s3, l3, z3, _⟩ := flashheap_write_some h2 hh3 _ _ hw3
    rw [← e2]
    have hm3a : hh3.mem h0.offset = -(h0.size - h0.hsize) := by
      rw [m3]; simp [memUpd]
    refine ⟨rfl, hm3a, ?_⟩
    unfold Tiled
    have hoo : hh3.offset = h0.offset := by rw [o3, ao, eo]
    have hss : hh3.size = h0.size := by rw [s3, asz, es]
    have hzz : hh3.hsize = h0.hsize := by rw [z3, az, ez]
    rw [hoo, hss, hzz]
    refine ⟨hm3a, ?_⟩
    show h0.offset + (|(-(h0.size - h0.hsize))| + h0.hsize) = h0.offset + h0.size
    rw [abs_neg, abs_of_nonneg (by omega : (0 : Int) ≤ h0.size - h0.hsize)]
    ring
  · have hro2f : h2.readOK h0.offset = false := by
      simpa using hro2
    rw [freeScanLoop_start_none h2 h0.offset (h2.size.toNat) 0 0 0 hin2 hro2f]
      at hf
    dsimp only at hf
    injection hf with e1 e2
    exact Bool.noConfusion e1

instance (h : Heap) (l : List Int) : Decidable (Tiled h l) :=
  layoutAtDec h.mem h.hsize l h.offset (h.offset + h.size)

/-- Heap for C4: region `[10, 20)`, `hsize = 2`, all storage zero, fault-free
device. -/
def heapC4 : Heap :=
  { mem := fun _ => 0,
    readOK := fun _ => true, writeOK := fun _ => true,
    offset := 10, size := 10, last := 0, hsize := 2 }

/-- C4 counterexample: at the claimed boundary `size = region_size -
2·header_size` (here 6 = 10 − 4) the split writes a zero remainder header, so
after erase, alloc(6), free the region holds a free packet of magnitude 6
followed by a zero header — not the single free packet of magnitude
`region_size - header_size = 8` the claim promises. -/
theorem round_trip_boundary_counterexample :
    (flashheap_erase heapC4).1 = true ∧
    (flashheap_alloc (flashheap_erase heapC4).2 6).1 = some 10 ∧
    (flashheap_free (flashheap_alloc (flashheap_erase heapC4).2 6).2 10).1 = true ∧
    (6 : Int) ≤ heapC4.size - 2 * heapC4.hsize ∧
    (flashheap_free (flashheap_alloc (flashheap_erase heapC4).2 6).2 10).2.mem 10
        = -6 ∧
    ¬ Tiled (flashheap_free (flashheap_alloc (flashheap_erase heapC4).2 6).2 10).2
        [-(heapC4.size - heapC4.hsize)] := by decide

/-- Witness for the amended C4 at `size = 5 < 6`: the round trip restores the
single free packet of magnitude 8. -/
theorem erase_alloc_free_round_trip_witness :
    Tiled (flashheap_free (flashheap_alloc (flashheap_erase heapC4).2 5).2 10).2
      [-(heapC4.size - heapC4.hsize)] :=
  (erase_alloc_free_round_trip heapC4 (flashheap_erase heapC4).2
    (flashheap_alloc (flashheap_erase heapC4).2 5).2
    (flashheap_free (flashheap_alloc (flashheap_erase heapC4).2 5).2 10).2
    5 10 (by decide) (by decide) (by decide) rfl rfl rfl).2.2

/-! ## C5: first-fit policy -/

/-- On a fault-free device, the alloc scan skips exactly the packets that do
not fit and succeeds at the first free packet whose capacity is at least the
requested size. -/
theorem allocLoop_skip_prefix (h : Heap) (s : Int)
    (hhs : 1 ≤ h.hsize)
    (hr : ∀ x, h.readOK x = true) (hw : ∀ x, h.writeOK x = true) :
    ∀ (l₁ : List Int) (fuel : Nat) (addr p : Int) (l₂ : List Int),
      layoutAt h.mem h.hsize (l₁ ++ p :: l₂) addr (h.offset + h.size) →
      (∀ q ∈ l₁, ¬(q < 0 ∧ s ≤ -q)) → p < 0 → s ≤ -p →
      l₁.length < fuel →
      (allocLoop h s fuel addr).1 = some (addr + walkLen h.hsize l₁) ∧
      (allocLoop h s fuel addr).2.last = addr + walkLen h.hsize l₁
  | [], fuel, addr, p, l₂, hlay, hno, hp, hfit, hfuel => by
    obtain ⟨f, rfl⟩ : ∃ f, fuel = f + 1 := ⟨fuel - 1, by omega⟩
    simp only [List.nil_append] at hlay
    have hin : addr < h.offset + h.size :=
      layoutAt_head_lt h.mem h.hsize hhs p l₂ addr _ hlay
    have hmem : h.mem addr = p := hlay.1
    rw [allocLoop, if_pos hin, flashheap_read_eq h addr (hr addr), hmem]
    dsimp only
    rw [if_pos ⟨hp, hfit⟩]
    have hzero : addr + walkLen h.hsize ([] : List Int) = addr := by
      simp [walkLen]
    by_cases hex : s ≠ -p
    · rw [if_pos hex]
      unfold flashheap_write
      rw [hw (addr + h.hsize + s), if_pos rfl]
      dsimp only
      rw [hw addr, if_pos rfl]
      dsimp only
      rw [hzero]
      exact ⟨rfl, rfl⟩
    · rw [if_neg hex]
      dsimp only
      unfold flashheap_write
      rw [hw addr, if_pos rfl]
      dsimp only
      rw [hzero]
      exact ⟨rfl, rfl⟩
  | q :: l₁, fuel, addr, p, l₂, hlay, hno, hp, hfit, hfuel => by
    obtain ⟨f, rfl⟩ : ∃ f, fuel = f + 1 := ⟨fuel - 1, by omega⟩
    simp only [List.cons_append] at hlay
    have hin : addr < h.offset + h.size :=
      layoutAt_head_lt h.mem h.hsize hhs q _ addr _ hlay
    have hmem : h.mem addr = q := hlay.1
    rw [allocLoop, if_pos hin, flashheap_read_eq h addr (hr addr), hmem]
    dsimp only
    rw [if_neg (hno q (by simp))]
    have ih := allocLoop_skip_prefix h s hhs hr hw l₁ f
      (addr + (|q| + h.hsize)) p l₂ hlay.2
      (fun r hrm => hno r (by simp [hrm])) hp hfit
      (by simp at hfuel; omega)
    have harr : addr + (|q| + h.hsize) + walkLen h.hsize l₁
        = addr + walkLen h.hsize (q :: l₁) := by
      simp only [walkLen]; ring
    rw [harr] at ih
    exact ih

/-- If no packet of the layout fits, the alloc scan returns `none` with the
heap untouched (this needs no fault-freedom: a read fault or fuel exhaustion
also returns `none` with the heap untouched). -/
theorem allocLoop_no_fit (h : Heap) (s : Int) :
    ∀ (l : List Int) (fuel : Nat) (addr : Int),
      layoutAt h.mem h.hsize l addr (h.offset + h.size) →
      (∀ q ∈ l, ¬(q < 0 ∧ s ≤ -q)) →
      allocLoop h s fuel addr = (none, h)
  | l, 0, addr, hlay, hno => by rw [allocLoop]
  | [], fuel + 1, addr, hlay, hno => by
    have hstop : addr = h.offset + h.size := hlay
    rw [allocLoop, if_neg (by omega)]
  | q :: l, fuel + 1, addr, hlay, hno => by
    by_cases hin : addr < h.offset + h.size
    · rw [allocLoop, if_pos hin]
      rcases hrd : flashheap_packet_read h addr with _ | p
      · rfl
      · dsimp only
        obtain ⟨_, hmem⟩ := flashheap_read_some h addr p hrd
        have hq : p = q := by rw [← hmem]; exact hlay.1
        subst hq
        rw [if_neg (hno p (by simp))]
        exact allocLoop_no_fit h s l fuel (addr + (|p| + h.hsize)) hlay.2
          (fun r hrm => hno r (by simp [hrm]))
    · rw [allocLoop, if_neg hin]

/-- C5: first-fit policy — on a fault-free device and a tiled heap,
`alloc` returns the address of the first free packet (in scan order from
`offset`) whose payload capacity is at least the requested size, and records
it as the heap's last allocation; and when no free packet fits, it returns
none and leaves the heap (and the store) exactly unchanged. -/
theorem alloc_first_fit (h : Heap) (l : List Int) (s : Int)
    (hhs : 1 ≤ h.hsize) (ht : Tiled h l)
    (hr : ∀ x, h.readOK x = true) (hw : ∀ x, h.writeOK x = true) :
    (∀ (l₁ : List Int) (p : Int) (l₂ : List Int), l = l₁ ++ p :: l₂ →
      (∀ q ∈ l₁, ¬(q < 0 ∧ s ≤ -q)) → p < 0 → s ≤ -p →
      (flashheap_alloc h s).1 = some (h.offset + walkLen h.hsize l₁) ∧
      (flashheap_alloc h s).2.last = h.offset + walkLen h.hsize l₁) ∧
    ((∀ q ∈ l, ¬(q < 0 ∧ s ≤ -q)) → flashheap_alloc h s = (none, h)) := by
  constructor
  · intro l₁ p l₂ hdecomp hno hp hfit
    subst hdecomp
    unfold flashheap_alloc
    refine allocLoop_skip_prefix h s hhs hr hw l₁ (h.size.toNat + 1) h.offset
      p l₂ ht hno hp hfit ?_
    have h1 := layoutAt_length_le h.mem h.hsize hhs _ _ _ ht
    have h2 : l₁.length < (l₁ ++ p :: l₂).length := by simp
    omega
  · intro hno
    unfold flashheap_alloc
    exact allocLoop_no_fit h s l (h.size.toNat + 1) h.offset ht hno

/-- Witness for C5: on the two-packet heap `[allocated 3, free 3]`, a request
of size 1 skips the allocated packet and is served at the free packet's
address 15. -/
theorem alloc_first_fit_witness :
    (flashheap_alloc heapC7 1).1 = some (heapC7.offset + walkLen heapC7.hsize [3]) ∧
    (flashheap_alloc heapC7 1).2.last = heapC7.offset + walkLen heapC7.hsize [3] :=
  (alloc_first_fit heapC7 [3, -3] 1 (by decide) (by decide)
    (fun _ => rfl) (fun _ => rfl)).1 [3] (-3) [] rfl (by decide) (by decide) (by decide)

/-! ## Characterisation of the free scan -/

theorem prevOf_snd (hsize : Int) :
    ∀ (l₁ : List Int) (pa ps addr : Int),
      (prevOf hsize l₁ pa ps addr).2 = l₁.getLastD ps
  | [], _, _, _ => rfl
  | q :: l₁, pa, ps, addr => by
    rw [prevOf, List.getLastD_cons]
    exact prevOf_snd hsize l₁ addr q (addr + (|q| + hsize))

theorem prevOf_concat (hsize : Int) :
    ∀ (l₁ : List Int) (q pa ps addr : Int),
      prevOf hsize (l₁ ++ [q]) pa ps addr = (addr + walkLen hsize l₁, q)
  | [], q, pa, ps, addr => by
    simp only [List.nil_append, prevOf, walkLen]
    rw [add_zero]
  | r :: l₁, q, pa, ps, addr => by
    simp only [List.cons_append, prevOf, List.append_eq]
    rw [prevOf_concat hsize l₁ q addr r (addr + (|r| + hsize))]
    have : addr + (|r| + hsize) + walkLen hsize l₁
        = addr + walkLen hsize (r :: l₁) := by
      simp only [walkLen]; ring
    rw [this]

/-- If the scan returns at all and the requested address is the start address
of packet `cur` of the layout, the scan breaks exactly there, with the
previous packet's address and header as tracked state. -/
theorem freeScanLoop_break (h : Heap) (d : Int) (hhs : 1 ≤ h.hsize) :
    ∀ (l₁ : List Int) (cur : Int) (l₂ : List Int) (fuel : Nat)
      (pa ps addr pk : Int) (out : Int × Int × Int × Int),
      layoutAt h.mem h.hsize (l₁ ++ cur :: l₂) addr (h.offset + h.size) →
      d = addr + walkLen h.hsize l₁ →
      freeScanLoop h d fuel (pa, ps, addr, pk) = some out →
      out = ((prevOf h.hsize l₁ pa ps addr).1,
             (prevOf h.hsize l₁ pa ps addr).2, d, cur)
  | [], cur, l₂, fuel, pa, ps, addr, pk, out, hlay, hdeq, hscan => by
    obtain ⟨f, rfl⟩ : ∃ f, fuel = f + 1 := by
      cases fuel with
      | zero => cases hscan
      | succ f => exact ⟨f, rfl⟩
    simp only [List.nil_append] at hlay
    have hd : d = addr := by
      rw [hdeq]; simp [walkLen]
    have hin : addr < h.offset + h.size :=
      layoutAt_head_lt h.mem h.hsize hhs cur l₂ addr _ hlay
    rw [freeScanLoop, if_pos hin] at hscan
    rcases hrd : flashheap_packet_read h addr with _ | p
    · rw [hrd] at hscan; cases hscan
    · rw [hrd] at hscan
      dsimp only at hscan
      obtain ⟨_, hmem⟩ := flashheap_read_some h addr p hrd
      rw [if_pos hd.symm] at hscan
      injection hscan with hscan
      rw [← hscan, prevOf]
      have : p = cur := by rw [← hmem]; exact hlay.1
      rw [this, hd]
  | q :: l₁, cur, l₂, fuel, pa, ps, addr, pk, out, hlay, hdeq, hscan => by
    obtain ⟨f, rfl⟩ : ∃ f, fuel = f + 1 := by
      cases fuel with
      | zero => cases hscan
      | succ f => exact ⟨f, rfl⟩
    simp only [List.cons_append] at hlay
    have hin : addr < h.offset + h.size :=
      layoutAt_head_lt h.mem h.hsize hhs q _ addr _ hlay
    have hwl := walkLen_nonneg h.hsize (by omega) l₁
    have habs := abs_nonneg q
    have hne : ¬(addr = d) := by
      rw [hdeq]
      simp only [walkLen]
      omega
    rw [freeScanLoop, if_pos hin] at hscan
    rcases hrd : flashheap_packet_read h addr with _ | p
    · rw [hrd] at hscan; cases hscan
    · rw [hrd] at hscan
      dsimp only at hscan
      obtain ⟨_, hmem⟩ := flashheap_read_some h addr p hrd
      have hpq : p = q := by rw [← hmem]; exact hlay.1
      subst hpq
      rw [if_neg hne] at hscan
      have hdeq2 : d = addr + (|p| + h.hsize) + walkLen h.hsize l₁ := by
        rw [hdeq]; simp only [walkLen]; ring
      have := freeScanLoop_break h d hhs l₁ cur l₂ f addr p
        (addr + (|p| + h.hsize)) p out hlay.2 hdeq2 hscan
      rw [this, prevOf]

/-- If the requested address is not the start address of any packet of the
layout, a scan that returns at all exits at the region end. -/
theorem freeScanLoop_exit (h : Heap) (d : Int) (hhs : 1 ≤ h.hsize) :
    ∀ (l : List Int) (fuel : Nat) (pa ps addr pk : Int)
      (out : Int × Int × Int × Int),
      layoutAt h.mem h.hsize l addr (h.offset + h.size) →
      (∀ (l₁ : List Int) (cur : Int) (l₂ : List Int), l = l₁ ++ cur :: l₂ →
        d ≠ addr + walkLen h.hsize l₁) →
      freeScanLoop h d fuel (pa, ps, addr, pk) = some out →
      out.2.2.1 = h.offset + h.size
  | [], fuel, pa, ps, addr, pk, out, hlay, hno, hscan => by
    obtain ⟨f, rfl⟩ : ∃ f, fuel = f + 1 := by
      cases fuel with
      | zero => cases hscan
      | succ f => exact ⟨f, rfl⟩
    have hstop : addr = h.offset + h.size := hlay
    rw [freeScanLoop, if_neg (by omega)] at hscan
    injection hscan with hscan
    rw [← hscan]
    exact hstop
  | q :: l, fuel, pa, ps, addr, pk, out, hlay, hno, hscan => by
    obtain ⟨f, rfl⟩ : ∃ f, fuel = f + 1 := by
      cases fuel with
      | zero => cases hscan
      | succ f => exact ⟨f, rfl⟩
    have hin : addr < h.offset + h.size :=
      layoutAt_head_lt h.mem h.hsize hhs q _ addr _ hlay
    have hne : ¬(addr = d) := by
      intro hc
      refine hno [] q l rfl ?_
      rw [← hc]; simp [walkLen]
    rw [freeScanLoop, if_pos hin] at hscan
    rcases hrd : flashheap_packet_read h addr with _ | p
    · rw [hrd] at hscan; cases hscan
    · rw [hrd] at hscan
      dsimp only at hscan
      obtain ⟨_, hmem⟩ := flashheap_read_some h addr p hrd
      have hpq : p = q := by rw [← hmem]; exact hlay.1
      subst hpq
      rw [if_neg hne] at hscan
      refine freeScanLoop_exit h d hhs l f addr p (addr + (|p| + h.hsize)) p
        out hlay.2 ?_ hscan
      intro l₁ cur l₂ hdc hc
      refine hno (p :: l₁) cur l₂ (by simp [hdc]) ?_
      rw [hc]
      simp only [walkLen]
      ring

/-!
## The four-case coalescing rule on layout lists

`freeResultList` renders the spec's coalescing rule (spec §4.3, four cases) as
a transformation of the layout list: `cur` is the header of the packet being
freed, `l₁` the packets before it, `l₂` the packets after it.  The merged
header values are written with the source's arithmetic (`packet1 = -cur`
already negated); when `l₂` is empty there is no following packet inside the
region, so only the preceding neighbour can be merged.
-/

/-- The layout list after freeing `cur`, by the spec's four-case rule. -/
def freeResultList (hsize cur : Int) (l₁ l₂ : List Int) : List Int :=
  match l₂ with
  | [] =>
    if l₁.getLastD 0 < 0 then
      l₁.dropLast ++ [(-cur) + l₁.getLastD 0 - hsize]
    else l₁ ++ [-cur]
  | n :: l₂x =>
    if l₁.getLastD 0 < 0 ∧ n < 0 then
      l₁.dropLast ++ ((-cur) + l₁.getLastD 0 + n - 2 * hsize) :: l₂x
    else if n < 0 then
      l₁ ++ ((-cur) + n - hsize) :: l₂x
    else if l₁.getLastD 0 < 0 then
      l₁.dropLast ++ ((-cur) + l₁.getLastD 0 - hsize) :: n :: l₂x
    else l₁ ++ (-cur) :: n :: l₂x

/-- The single final write of free, replacing the segment between the intact
prefix `A` and suffix `B`, yields the expected layout and does not touch the
header cell at the region end. -/
theorem free_write_result (h h3 : Heap) (A B : List Int) (waddr nb w : Int)
    (hhs : 1 ≤ h.hsize)
    (hA : layoutAt h.mem h.hsize A h.offset waddr)
    (hB : layoutAt h.mem h.hsize B nb (h.offset + h.size))
    (hstep : waddr + (|w| + h.hsize) = nb)
    (hw : flashheap_write h waddr w = some h3) :
    layoutAt h3.mem h.hsize (A ++ w :: B) h.offset (h.offset + h.size) ∧
    h3.mem (h.offset + h.size) = h.mem (h.offset + h.size) := by
  obtain ⟨m3, _, _, _, _, _, _, _⟩ := flashheap_write_some h h3 _ _ hw
  have habs := abs_nonneg w
  have hble := layoutAt_le h.mem h.hsize (by omega) B nb _ hB
  constructor
  · rw [m3]
    exact layout_replace h.mem h.hsize hhs A B h.offset waddr nb _ w hA hB hstep
  · rw [m3]
    unfold memUpd
    rw [if_neg (by omega)]

/-- Master characterisation of a successful free: on a tiled heap whose
region-end header reads non-negative and with a requested address other than
the region end, the freed packet is one of the layout's packets, and after
the single final write the store is laid out by the spec's four-case rule. -/
theorem flashheap_free_success (h h3 : Heap) (l : List Int) (d : Int)
    (hhs : 1 ≤ h.hsize) (ht : Tiled h l)
    (hend : 0 ≤ h.mem (h.offset + h.size))
    (hd : d ≠ h.offset + h.size)
    (hf : flashheap_free h d = (true, h3)) :
    ∃ (l₁ : List Int) (cur : Int) (l₂ : List Int),
      l = l₁ ++ cur :: l₂ ∧ d = h.offset + walkLen h.hsize l₁ ∧
      0 ≤ cur ∧ h.mem d = cur ∧
      layoutAt h3.mem h.hsize (freeResultList h.hsize cur l₁ l₂)
        h.offset (h.offset + h.size) ∧
      h3.mem (h.offset + h.size) = h.mem (h.offset + h.size) ∧
      h3.readOK = h.readOK ∧ h3.writeOK = h.writeOK ∧
      h3.offset = h.offset ∧ h3.size = h.size ∧ h3.last = h.last ∧
      h3.hsize = h.hsize := by
  unfold flashheap_free at hf
  rcases hscan : freeScanLoop h d (h.size.toNat + 1) (0, 0, h.offset, 0)
    with _ | ⟨pa, ps, a2, pk⟩
  · rw [hscan] at hf
    dsimp only at hf
    injection hf with e1 _
    exact Bool.noConfusion e1
  rw [hscan] at hf
  dsimp only at hf
  have hdec : ∃ (l₁ : List Int) (cur : Int) (l₂ : List Int),
      l = l₁ ++ cur :: l₂ ∧ d = h.offset + walkLen h.hsize l₁ := by
    by_contra hno
    push_neg at hno
    have ha2 : a2 = h.offset + h.size := by
      refine freeScanLoop_exit h d hhs l _ 0 0 h.offset 0 _ ht ?_ hscan
      intro l₁ cur l₂ hdc
      exact hno l₁ cur l₂ hdc
    unfold freeAfterScan at hf
    rw [if_pos (by rw [ha2]; exact fun hc => hd hc.symm)] at hf
    injection hf with e1 _
    exact Bool.noConfusion e1
  obtain ⟨l₁, cur, l₂, hdc, hdeq⟩ := hdec
  subst hdc
  have hbreak := freeScanLoop_break h d hhs l₁ cur l₂ _ 0 0 h.offset 0
    (pa, ps, a2, pk) ht hdeq hscan
  rw [Prod.mk.injEq, Prod.mk.injEq, Prod.mk.injEq] at hbreak
  obtain ⟨hpa, hps, ha2, hpk⟩ := hbreak
  subst hpa
  subst hps
  replace ha2 := ha2.symm
  subst ha2
  replace hpk := hpk.symm
  subst hpk
  have ht2 : layoutAt h.mem h.hsize (l₁ ++ cur :: l₂) h.offset
      (h.offset + h.size) := ht
  rw [layoutAt_append] at ht2
  obtain ⟨hlayA, hlayC⟩ := ht2
  rw [← hdeq] at hlayA hlayC
  have hmemd : h.mem d = cur := hlayC.1
  unfold freeAfterScan at hf
  rw [if_neg (fun hc => hc rfl)] at hf
  have hcur : 0 ≤ cur := by
    by_contra hneg
    push_neg at hneg
    rw [if_pos hneg] at hf
    injection hf with e1 _
    exact Bool.noConfusion e1
  rw [if_neg (by omega : ¬cur < 0)] at hf
  rw [show |(-cur)| = cur from by rw [abs_neg]; exact abs_of_nonneg hcur] at hf
  have hnaddr := hlayC.2
  rw [abs_of_nonneg hcur] at hnaddr
  rcases hrd2 : flashheap_packet_read h (d + (cur + h.hsize)) with _ | nv
  · rw [hrd2] at hf
    dsimp only at hf
    injection hf with e1 _
    exact Bool.noConfusion e1
  rw [hrd2] at hf
  dsimp only at hf
  obtain ⟨hro2, hnv⟩ := flashheap_read_some h _ nv hrd2
  rw [prevOf_snd h.hsize l₁ 0 0 h.offset] at hf
  have finish : ∀ (A B : List Int) (wa nb wv : Int),
      layoutAt h.mem h.hsize A h.offset wa →
      layoutAt h.mem h.hsize B nb (h.offset + h.size) →
      wa + (|wv| + h.hsize) = nb →
      (match flashheap_write h wa wv with
       | none => (false, h)
       | some heap2 => (true, heap2)) = (true, h3) →
      layoutAt h3.mem h.hsize (A ++ wv :: B) h.offset (h.offset + h.size) ∧
      h3.mem (h.offset + h.size) = h.mem (h.offset + h.size) ∧
      h3.readOK = h.readOK ∧ h3.writeOK = h.writeOK ∧ h3.offset = h.offset ∧
      h3.size = h.size ∧ h3.last = h.last ∧ h3.hsize = h.hsize := by
    intro A B wa nb wv hA hB hstep hfw
    rcases hw3 : flashheap_write h wa wv with _ | hh3
    · rw [hw3] at hfw
      dsimp only at hfw
      injection hfw with e1 _
      exact Bool.noConfusion e1
    · rw [hw3] at hfw
      dsimp only at hfw
      injection hfw with _ e2
      obtain ⟨_, r3, w3, o3, s3, l3, z3, _⟩ := flashheap_write_some h hh3 _ _ hw3
      obtain ⟨hl, he2⟩ := free_write_result h hh3 A B wa nb wv hhs hA hB hstep hw3
      rw [← e2]
      exact ⟨hl, he2, r3, w3, o3, s3, l3, z3⟩
  rcases l₂ with _ | ⟨n, l₂x⟩
  · -- the freed packet is the last packet of the region
    have hstop : d + (cur + h.hsize) = h.offset + h.size := hnaddr
    rw [hstop] at hnv
    have hnv2 : 0 ≤ nv := by rw [← hnv]; exact hend
    by_cases hpsneg : l₁.getLastD 0 < 0
    · -- only the preceding neighbour is free: merge the two
      rcases List.eq_nil_or_concat l₁ with rfl | ⟨L, q, hLq⟩
      · simp [List.getLastD] at hpsneg
      rw [List.concat_eq_append] at hLq
      subst hLq
      rw [List.getLastD_concat] at hpsneg hf
      rw [prevOf_concat h.hsize L q 0 0 h.offset] at hf
      dsimp only at hf
      rw [layoutAt_append] at hlayA
      obtain ⟨hLlay, hqlay⟩ := hlayA
      have hqstep : h.offset + walkLen h.hsize L + (|q| + h.hsize) = d :=
        hqlay.2
      rw [abs_of_nonpos (by omega : q ≤ 0)] at hqstep
      have hMV : freeMergeVal h.hsize q (-cur) nv = (-cur) + q - h.hsize := by
        unfold freeMergeVal
        rw [if_neg (by omega), if_neg (by omega), if_pos hpsneg]
      have hMA : freeMergeAddr (h.offset + walkLen h.hsize L) d q nv
          = h.offset + walkLen h.hsize L := by
        unfold freeMergeAddr
        rw [if_neg (by omega), if_neg (by omega), if_pos hpsneg]
      rw [hMV, hMA] at hf
      have hstep : h.offset + walkLen h.hsize L
          + (|(-cur) + q - h.hsize| + h.hsize) = h.offset + h.size := by
        rw [abs_of_nonpos (by omega : (-cur) + q - h.hsize ≤ 0)]
        omega
      have hfin := finish L [] (h.offset + walkLen h.hsize L)
        (h.offset + h.size) ((-cur) + q - h.hsize) hLlay rfl hstep hf
      refine ⟨L ++ [q], cur, [], rfl, hdeq, hcur, hmemd, ?_, hfin.2⟩
      have hfr : freeResultList h.hsize cur (L ++ [q]) []
          = L ++ ((-cur) + q - h.hsize) :: [] := by
        unfold freeResultList
        dsimp only
        rw [List.getLastD_concat, if_pos hpsneg, List.dropLast_concat]
      rw [hfr]
      exact hfin.1
    · -- no free neighbour: the negated header stands alone
      have hMV : freeMergeVal h.hsize (l₁.getLastD 0) (-cur) nv = -cur := by
        unfold freeMergeVal
        rw [if_neg (by omega), if_neg (by omega), if_neg hpsneg]
      have hMA : freeMergeAddr ((prevOf h.hsize l₁ 0 0 h.offset).1) d
          (l₁.getLastD 0) nv = d := by
        unfold freeMergeAddr
        rw [if_neg (by omega), if_neg (by omega), if_neg hpsneg]
      rw [hMV, hMA] at hf
      have hstep : d + (|(-cur)| + h.hsize) = h.offset + h.size := by
        rw [abs_neg, abs_of_nonneg hcur]
        omega
      have hfin := finish l₁ [] d (h.offset + h.size) (-cur) hlayA rfl hstep hf
      refine ⟨l₁, cur, [], rfl, hdeq, hcur, hmemd, ?_, hfin.2⟩
      have hfr : freeResultList h.hsize cur l₁ [] = l₁ ++ (-cur) :: [] := by
        unfold freeResultList
        dsimp only
        rw [if_neg hpsneg]
      rw [hfr]
      exact hfin.1
  · -- there is a packet after the freed one inside the region
    have hnmem : h.mem (d + (cur + h.hsize)) = n := hnaddr.1
    have hnveq : nv = n := by rw [← hnv, hnmem]
    subst hnveq
    have hnlay := hnaddr.2
    by_cases hnneg : nv < 0
    · rw [abs_of_nonpos (by omega : nv ≤ 0)] at hnlay
      by_cases hpsneg : l₁.getLastD 0 < 0
      · -- both neighbours free: merge all three
        rcases List.eq_nil_or_concat l₁ with rfl | ⟨L, q, hLq⟩
        · simp [List.getLastD] at hpsneg
        rw [List.concat_eq_append] at hLq
        subst hLq
        rw [List.getLastD_concat] at hpsneg hf
        rw [prevOf_concat h.hsize L q 0 0 h.offset] at hf
        dsimp only at hf
        rw [layoutAt_append] at hlayA
        obtain ⟨hLlay, hqlay⟩ := hlayA
        have hqstep : h.offset + walkLen h.hsize L + (|q| + h.hsize) = d :=
          hqlay.2
        rw [abs_of_nonpos (by omega : q ≤ 0)] at hqstep
        have hcond : q < 0 ∧ nv < 0 := ⟨hpsneg, hnneg⟩
        have hMV : freeMergeVal h.hsize q (-cur) nv
            = (-cur) + q + nv - 2 * h.hsize := by
          unfold freeMergeVal
          rw [if_pos hcond]
        have hMA : freeMergeAddr (h.offset + walkLen h.hsize L) d q nv
            = h.offset + walkLen h.hsize L := by
          unfold freeMergeAddr
          rw [if_pos hcond]
        rw [hMV, hMA] at hf
        have hstep : h.offset + walkLen h.hsize L
            + (|(-cur) + q + nv - 2 * h.hsize| + h.hsize)
            = d + (cur + h.hsize) + (-nv + h.hsize) := by
          rw [abs_of_nonpos (by omega : (-cur) + q + nv - 2 * h.hsize ≤ 0)]
          ring_nf
          omega
        have hfin := finish L l₂x (h.offset + walkLen h.hsize L)
          (d + (cur + h.hsize) + (-nv + h.hsize))
          ((-cur) + q + nv - 2 * h.hsize) hLlay hnlay hstep hf
        refine ⟨L ++ [q], cur, nv :: l₂x, rfl, hdeq, hcur, hmemd, ?_, hfin.2⟩
        have hfr : freeResultList h.hsize cur (L ++ [q]) (nv :: l₂x)
            = L ++ ((-cur) + q + nv - 2 * h.hsize) :: l₂x := by
          unfold freeResultList
          dsimp only
          rw [List.getLastD_concat, if_pos hcond, List.dropLast_concat]
        rw [hfr]
        exact hfin.1
      · -- only the following neighbour is free: merge the two
        have hMV : freeMergeVal h.hsize (l₁.getLastD 0) (-cur) nv
            = (-cur) + nv - h.hsize := by
          unfold freeMergeVal
          rw [if_neg (by omega), if_pos hnneg]
        have hMA : freeMergeAddr ((prevOf h.hsize l₁ 0 0 h.offset).1) d
            (l₁.getLastD 0) nv = d := by
          unfold freeMergeAddr
          rw [if_neg (by omega), if_pos hnneg]
        rw [hMV, hMA] at hf
        have hstep : d + (|(-cur) + nv - h.hsize| + h.hsize)
            = d + (cur + h.hsize) + (-nv + h.hsize) := by
          rw [abs_of_nonpos (by omega : (-cur) + nv - h.hsize ≤ 0)]
          ring
        have hfin := finish l₁ l₂x d (d + (cur + h.hsize) + (-nv + h.hsize))
          ((-cur) + nv - h.hsize) hlayA hnlay hstep hf
        refine ⟨l₁, cur, nv :: l₂x, rfl, hdeq, hcur, hmemd, ?_, hfin.2⟩
        have hfr : freeResultList h.hsize cur l₁ (nv :: l₂x)
            = l₁ ++ ((-cur) + nv - h.hsize) :: l₂x := by
          unfold freeResultList
          dsimp only
          rw [if_neg (by omega : ¬(l₁.getLastD 0 < 0 ∧ nv < 0)), if_pos hnneg]
        rw [hfr]
        exact hfin.1
    · rw [abs_of_nonneg (by omega : 0 ≤ nv)] at hnlay
      by_cases hpsneg : l₁.getLastD 0 < 0
      · -- only the preceding neighbour is free: merge the two
        rcases List.eq_nil_or_concat l₁ with rfl | ⟨L, q, hLq⟩
        · simp [List.getLastD] at hpsneg
        rw [List.concat_eq_append] at hLq
        subst hLq
        rw [List.getLastD_concat] at hpsneg hf
        rw [prevOf_concat h.hsize L q 0 0 h.offset] at hf
        dsimp only at hf
        rw [layoutAt_append] at hlayA
        obtain ⟨hLlay, hqlay⟩ := hlayA
        have hqstep : h.offset + walkLen h.hsize L + (|q| + h.hsize) = d :=
          hqlay.2
        rw [abs_of_nonpos (by omega : q ≤ 0)] at hqstep
        have hMV : freeMergeVal h.hsize q (-cur) nv = (-cur) + q - h.hsize := by
          unfold freeMergeVal
          rw [if_neg (by omega), if_neg (by omega), if_pos hpsneg]
        have hMA : freeMergeAddr (h.offset + walkLen h.hsize L) d q nv
            = h.offset + walkLen h.hsize L := by
          unfold freeMergeAddr
          rw [if_neg (by omega), if_neg (by omega), if_pos hpsneg]
        rw [hMV, hMA] at hf
        have hstep : h.offset + walkLen h.hsize L
            + (|(-cur) + q - h.hsize| + h.hsize) = d + (cur + h.hsize) := by
          rw [abs_of_nonpos (by omega : (-cur) + q - h.hsize ≤ 0)]
          omega
        have hB2 : layoutAt h.mem h.hsize (nv :: l₂x) (d + (cur + h.hsize))
            (h.offset + h.size) := ⟨hnmem, by
          rw [abs_of_nonneg (by omega : (0 : Int) ≤ nv)]
          exact hnlay⟩
        have hfin := finish L (nv :: l₂x) (h.offset + walkLen h.hsize L)
          (d + (cur + h.hsize)) ((-cur) + q - h.hsize) hLlay hB2 hstep hf
        refine ⟨L ++ [q], cur, nv :: l₂x, rfl, hdeq, hcur, hmemd, ?_, hfin.2⟩
        have hfr : freeResultList h.hsize cur (L ++ [q]) (nv :: l₂x)
            = L ++ ((-cur) + q - h.hsize) :: nv :: l₂x := by
          unfold freeResultList
          dsimp only
          rw [List.getLastD_concat,
            if_neg (by omega : ¬(q < 0 ∧ nv < 0)),
            if_neg (by omega : ¬nv < 0), if_pos hpsneg, List.dropLast_concat]
        rw [hfr]
        exact hfin.1
      · -- no free neighbour: the negated header stands alone
        have hMV : freeMergeVal h.hsize (l₁.getLastD 0) (-cur) nv = -cur := by
          unfold freeMergeVal
          rw [if_neg (by omega), if_neg (by omega), if_neg hpsneg]
        have hMA : freeMergeAddr ((prevOf h.hsize l₁ 0 0 h.offset).1) d
            (l₁.getLastD 0) nv = d := by
          unfold freeMergeAddr
          rw [if_neg (by omega), if_neg (by omega), if_neg hpsneg]
        rw [hMV, hMA] at hf
        have hstep : d + (|(-cur)| + h.hsize) = d + (cur + h.hsize) := by
          rw [abs_neg, abs_of_nonneg hcur]
        have hB2 : layoutAt h.mem h.hsize (nv :: l₂x) (d + (cur + h.hsize))
            (h.offset + h.size) := ⟨hnmem, by
          rw [abs_of_nonneg (by omega : (0 : Int) ≤ nv)]
          exact hnlay⟩
        have hfin := finish l₁ (nv :: l₂x) d (d + (cur + h.hsize)) (-cur)
          hlayA hB2 hstep hf
        refine ⟨l₁, cur, nv :: l₂x, rfl, hdeq, hcur, hmemd, ?_, hfin.2⟩
        have hfr : freeResultList h.hsize cur l₁ (nv :: l₂x)
            = l₁ ++ (-cur) :: nv :: l₂x := by
          unfold freeResultList
          dsimp only
          rw [if_neg (by omega : ¬(l₁.getLastD 0 < 0 ∧ nv < 0)),
            if_neg (by omega : ¬nv < 0), if_neg hpsneg]
        rw [hfr]
        exact hfin.1

/-! ## C2: coalescing correctness -/

theorem naf_append_mid (A B : List Int) (x : Int) :
    NoAdjacentFree (A ++ x :: B) ↔
      NoAdjacentFree A ∧ NoAdjacentFree B ∧
      (∀ a, A.getLast? = some a → (0 ≤ a ∨ 0 ≤ x)) ∧
      (∀ b, B.head? = some b → (0 ≤ x ∨ 0 ≤ b)) := by
  unfold NoAdjacentFree
  rw [List.chain'_append, List.chain'_cons']
  simp only [List.head?_cons, Option.mem_def, Option.some.injEq]
  constructor
  · rintro ⟨h1, ⟨h2, h3⟩, h4⟩
    exact ⟨h1, h3, fun a ha => h4 a ha x rfl, h2⟩
  · rintro ⟨h1, h2, h3, h4⟩
    exact ⟨h1, ⟨h4, h2⟩, fun a ha y hy => hy ▸ h3 a ha⟩

theorem getLastD_of_getLast? (l : List Int) (a : Int)
    (h : l.getLast? = some a) : l.getLastD 0 = a := by
  rw [List.getLastD_eq_getLast? 0 l, h]
  rfl

/-- The four-case coalescing rule never leaves two adjacent free packets when
the rest of the layout had none. -/
theorem freeResultList_naf (hsize cur : Int) (l₁ l₂ : List Int)
    (hnaf : NoAdjacentFree (l₁ ++ cur :: l₂)) :
    NoAdjacentFree (freeResultList hsize cur l₁ l₂) := by
  obtain ⟨h1, h2, hlast, _⟩ := (naf_append_mid l₁ l₂ cur).mp hnaf
  unfold freeResultList
  rcases l₂ with _ | ⟨n, l₂x⟩
  · dsimp only
    by_cases hps : l₁.getLastD 0 < 0
    · rw [if_pos hps]
      rcases List.eq_nil_or_concat l₁ with rfl | ⟨L, q, hLq⟩
      · simp [List.getLastD] at hps
      rw [List.concat_eq_append] at hLq
      subst hLq
      rw [List.dropLast_concat]
      obtain ⟨hL, _, hLlast, _⟩ := (naf_append_mid L [] q).mp h1
      refine (naf_append_mid L [] _).mpr ⟨hL, h2, ?_, by simp⟩
      intro a ha
      left
      have hq : q < 0 := by
        rw [getLastD_of_getLast? _ q (List.getLast?_concat L)] at hps
        exact hps
      rcases hLlast a ha with hle | hle
      · exact hle
      · omega
    · rw [if_neg hps]
      refine (naf_append_mid l₁ [] _).mpr
        ⟨h1, by simp [NoAdjacentFree], ?_, by simp⟩
      intro a ha
      left
      have := getLastD_of_getLast? l₁ a ha
      omega
  · dsimp only
    obtain ⟨_, hx2, _, hxhead⟩ := (naf_append_mid [] l₂x n).mp h2
    by_cases hps : l₁.getLastD 0 < 0
    · rcases List.eq_nil_or_concat l₁ with rfl | ⟨L, q, hLq⟩
      · simp [List.getLastD] at hps
      rw [List.concat_eq_append] at hLq
      subst hLq
      have hq : q < 0 := by
        rw [getLastD_of_getLast? _ q (List.getLast?_concat L)] at hps
        exact hps
      obtain ⟨hL, _, hLlast, _⟩ := (naf_append_mid L [] q).mp h1
      have hLa : ∀ a, L.getLast? = some a → 0 ≤ a := by
        intro a ha
        rcases hLlast a ha with hle | hle
        · exact hle
        · omega
      by_cases hn : n < 0
      · rw [if_pos (by
          rw [getLastD_of_getLast? _ q (List.getLast?_concat L)]
          exact ⟨hq, hn⟩)]
        rw [List.dropLast_concat]
        refine (naf_append_mid L l₂x _).mpr ⟨hL, hx2, ?_, ?_⟩
        · intro a ha
          exact Or.inl (hLa a ha)
        · intro b hb
          rcases hxhead b hb with hle | hle
          · omega
          · exact Or.inr hle
      · rw [if_neg (by
          rw [getLastD_of_getLast? _ q (List.getLast?_concat L)]
          exact fun hc => hn hc.2), if_neg hn]
        rw [if_pos (by
          rw [getLastD_of_getLast? _ q (List.getLast?_concat L)]
          exact hq)]
        rw [List.dropLast_concat]
        refine (naf_append_mid L (n :: l₂x) _).mpr ⟨hL, h2, ?_, ?_⟩
        · intro a ha
          exact Or.inl (hLa a ha)
        · intro b hb
          simp only [List.head?_cons, Option.some.injEq] at hb
          right
          omega
    · have hla : ∀ a, l₁.getLast? = some a → 0 ≤ a := by
        intro a ha
        have := getLastD_of_getLast? l₁ a ha
        omega
      by_cases hn : n < 0
      · rw [if_neg (fun hc => hps hc.1), if_pos hn]
        refine (naf_append_mid l₁ l₂x _).mpr ⟨h1, hx2, ?_, ?_⟩
        · intro a ha
          exact Or.inl (hla a ha)
        · intro b hb
          rcases hxhead b hb with hle | hle
          · omega
          · exact Or.inr hle
      · rw [if_neg (fun hc => hps hc.1), if_neg hn, if_neg hps]
        refine (naf_append_mid l₁ (n :: l₂x) _).mpr ⟨h1, h2, ?_, ?_⟩
        · intro a ha
          exact Or.inl (hla a ha)
        · intro b hb
          simp only [List.head?_cons, Option.some.injEq] at hb
          right
          omega

/-- Heap for the C2 counterexample: packets `[allocated 2, free 1, free 1]`
tiling `[10, 20)` with `hsize = 2` — a tiled state that already violates the
coalescing invariant away from the freed packet. -/
def heapC2 : Heap :=
  { mem := fun a => if a = 10 then 2 else if a = 14 then -1 else
      if a = 17 then -1 else 0,
    readOK := fun _ => true, writeOK := fun _ => true,
    offset := 10, size := 10, last := 0, hsize := 2 }

/-- C2 counterexample: free succeeds on the allocated packet at 10 (and even
follows the four-case rule locally, merging with its free right neighbour),
but afterwards the heap still contains two directly adjacent free packets
(−5 at 10 ending at 17, −1 at 17), so the claim's unconditional "afterwards
no free packet is adjacent to another free packet" is false for heap states
that do not already satisfy the coalescing invariant. -/
theorem free_adjacent_counterexample :
    layoutAt heapC2.mem 2 [2, -1, -1] 10 20 ∧
    0 ≤ heapC2.mem 10 ∧
    (flashheap_free heapC2 10).1 = true ∧
    layoutAt (flashheap_free heapC2 10).2.mem 2 [-5, -1] 10 20 ∧
    ¬ NoAdjacentFree [-5, -1] := by decide

/-- C2 amended: on a tiled heap with no two adjacent free packets, a
non-negative header readable at the region end, and a request other than the
region end, a successful free frees one of the layout's packets (an allocated
one), transforms the layout exactly by the spec's four-case rule
(`freeResultList`), and afterwards no free packet is adjacent to another. -/
theorem free_coalescing (h h3 : Heap) (l : List Int) (d : Int)
    (hhs : 1 ≤ h.hsize) (ht : Tiled h l) (hnaf : NoAdjacentFree l)
    (hend : 0 ≤ h.mem (h.offset + h.size))
    (hd : d ≠ h.offset + h.size)
    (hf : flashheap_free h d = (true, h3)) :
    ∃ (l₁ : List Int) (cur : Int) (l₂ : List Int),
      l = l₁ ++ cur :: l₂ ∧
      d = h.offset + walkLen h.hsize l₁ ∧ 0 ≤ cur ∧ h.mem d = cur ∧
      Tiled h3 (freeResultList h.hsize cur l₁ l₂) ∧
      NoAdjacentFree (freeResultList h.hsize cur l₁ l₂) := by
  obtain ⟨l₁, cur, l₂, hdc, hdeq, hcur, hmemd, hlay, _, _, _, ho3, hs3, _, hz3⟩ :=
    flashheap_free_success h h3 l d hhs ht hend hd hf
  refine ⟨l₁, cur, l₂, hdc, hdeq, hcur, hmemd, ?_, ?_⟩
  · unfold Tiled
    rw [ho3, hs3, hz3]
    exact hlay
  · exact freeResultList_naf h.hsize cur l₁ l₂ (hdc ▸ hnaf)

/-- Heap for the C2 witness: packets `[allocated 2, free 4]` tiling `[10, 20)`
with `hsize = 2`. -/
def heapC2w : Heap :=
  { mem := fun a => if a = 10 then 2 else if a = 14 then -4 else 0,
    readOK := fun _ => true, writeOK := fun _ => true,
    offset := 10, size := 10, last := 0, hsize := 2 }

/-- Witness for the amended C2: freeing the allocated packet at 10 merges it
with its free right neighbour by the four-case rule and leaves no adjacent
free packets. -/
theorem free_coalescing_witness :
    ∃ (l₁ : List Int) (cur : Int) (l₂ : List Int),
      ([2, -4] : List Int) = l₁ ++ cur :: l₂ ∧
      (10 : Int) = heapC2w.offset + walkLen heapC2w.hsize l₁ ∧ 0 ≤ cur ∧
      heapC2w.mem 10 = cur ∧
      Tiled (flashheap_free heapC2w 10).2
        (freeResultList heapC2w.hsize cur l₁ l₂) ∧
      NoAdjacentFree (freeResultList heapC2w.hsize cur l₁ l₂) :=
  free_coalescing heapC2w (flashheap_free heapC2w 10).2 [2, -4] 10
    (by decide) (by decide) (by decide) (by decide) (by decide) rfl

/-! ## C10: free of the final packet reads past the region end -/

/-- When every read along the prefix succeeds, the free scan reaches the
requested packet and breaks there. -/
theorem freeScanLoop_reaches (h : Heap) (d : Int) (hhs : 1 ≤ h.hsize) :
    ∀ (l₁ : List Int) (cur : Int) (l₂ : List Int) (fuel : Nat)
      (pa ps addr pk : Int),
      layoutAt h.mem h.hsize (l₁ ++ cur :: l₂) addr (h.offset + h.size) →
      d = addr + walkLen h.hsize l₁ →
      (∀ x ∈ packetAddrs h.hsize l₁ addr, h.readOK x = true) →
      h.readOK d = true →
      l₁.length < fuel →
      freeScanLoop h d fuel (pa, ps, addr, pk)
        = some ((prevOf h.hsize l₁ pa ps addr).1,
                (prevOf h.hsize l₁ pa ps addr).2, d, cur)
  | [], cur, l₂, fuel, pa, ps, addr, pk, hlay, hdeq, _, hrod, hfuel => by
    obtain ⟨f, rfl⟩ : ∃ f, fuel = f + 1 := ⟨fuel - 1, by omega⟩
    simp only [List.nil_append] at hlay
    have hd : d = addr := by rw [hdeq]; simp [walkLen]
    subst hd
    have hin : d < h.offset + h.size :=
      layoutAt_head_lt h.mem h.hsize hhs cur l₂ d _ hlay
    rw [freeScanLoop, if_pos hin, flashheap_read_eq h d hrod]
    dsimp only
    rw [if_pos rfl, prevOf, hlay.1]
  | q :: l₁, cur, l₂, fuel, pa, ps, addr, pk, hlay, hdeq, hros, hrod, hfuel => by
    obtain ⟨f, rfl⟩ : ∃ f, fuel = f + 1 := ⟨fuel - 1, by omega⟩
    simp only [List.cons_append] at hlay
    have hin : addr < h.offset + h.size :=
      layoutAt_head_lt h.mem h.hsize hhs q _ addr _ hlay
    have hwl := walkLen_nonneg h.hsize (by omega) l₁
    have habs := abs_nonneg q
    have hne : ¬(addr = d) := by
      rw [hdeq]; simp only [walkLen]; omega
    have hroa : h.readOK addr = true := hros addr (by rw [packetAddrs]; simp)
    rw [freeScanLoop, if_pos hin, flashheap_read_eq h addr hroa]
    dsimp only
    rw [hlay.1, if_neg hne]
    have hdeq2 : d = addr + (|q| + h.hsize) + walkLen h.hsize l₁ := by
      rw [hdeq]; simp only [walkLen]; ring
    rw [freeScanLoop_reaches h d hhs l₁ cur l₂ f addr q
      (addr + (|q| + h.hsize)) q hlay.2 hdeq2
      (fun x hx => hros x (by rw [packetAddrs]; simp [hx])) hrod
      (by simp only [List.length_cons] at hfuel; omega)]
    rw [prevOf]

/-- C10: for a heap tiled so that the packet at the requested address `d` is
the final packet (its payload ends exactly at `offset + size`), free reads a
header at `offset + size`, outside the region: the call fails whenever that
read fails, and when it succeeds with a negative value — here with no free
left neighbour — that value is treated as a free right neighbour and
coalesced into the merged magnitude written at `d`. -/
theorem free_last_packet_reads_past_end (h : Heap) (l₁ : List Int)
    (cur d : Int) (hhs : 1 ≤ h.hsize) (ht : Tiled h (l₁ ++ [cur]))
    (hdeq : d = h.offset + walkLen h.hsize l₁) (hcur : 0 ≤ cur) :
    (h.readOK (h.offset + h.size) = false → flashheap_free h d = (false, h)) ∧
    (h.readOK (h.offset + h.size) = true →
     h.mem (h.offset + h.size) < 0 →
     0 ≤ l₁.getLastD 0 →
     (∀ x ∈ packetAddrs h.hsize l₁ h.offset, h.readOK x = true) →
     h.readOK d = true →
     h.writeOK d = true →
     (flashheap_free h d).1 = true ∧
     (flashheap_free h d).2.mem d
       = (-cur) + h.mem (h.offset + h.size) - h.hsize) := by
  have ht2 : layoutAt h.mem h.hsize (l₁ ++ cur :: []) h.offset
      (h.offset + h.size) := ht
  rw [layoutAt_append] at ht2
  obtain ⟨hlayA, hlayC⟩ := ht2
  rw [← hdeq] at hlayA hlayC
  have hmemd : h.mem d = cur := hlayC.1
  have hstop : d + (cur + h.hsize) = h.offset + h.size := by
    have := hlayC.2
    rw [abs_of_nonneg hcur] at this
    exact this
  constructor
  · -- the out-of-region read fails, so the call fails
    intro hrof
    unfold flashheap_free
    rcases hscan : freeScanLoop h d (h.size.toNat + 1) (0, 0, h.offset, 0)
      with _ | ⟨pa, ps, a2, pk⟩
    · rfl
    dsimp only
    have hbreak := freeScanLoop_break h d hhs l₁ cur [] _ 0 0 h.offset 0
      (pa, ps, a2, pk) ht hdeq hscan
    rw [Prod.mk.injEq, Prod.mk.injEq, Prod.mk.injEq] at hbreak
    obtain ⟨hpa, hps, ha2, hpk⟩ := hbreak
    subst hpa
    subst hps
    replace ha2 := ha2.symm
    subst ha2
    replace hpk := hpk.symm
    subst hpk
    unfold freeAfterScan
    rw [if_neg (fun hc => hc rfl), if_neg (by omega : ¬cur < 0)]
    rw [show |(-cur)| = cur from by rw [abs_neg]; exact abs_of_nonneg hcur]
    rw [hstop]
    unfold flashheap_packet_read
    rw [hrof]
    rfl
  · -- the out-of-region read succeeds with a negative value: phantom merge
    intro hrot hnegend hps hros hrod hwd
    unfold flashheap_free
    rw [freeScanLoop_reaches h d hhs l₁ cur [] (h.size.toNat + 1) 0 0
      h.offset 0 ht hdeq hros hrod (by
        have h1 := layoutAt_length_le h.mem h.hsize hhs _ _ _ ht
        have h2 : l₁.length < (l₁ ++ [cur]).length := by simp
        omega)]
    dsimp only
    unfold freeAfterScan
    rw [if_neg (fun hc => hc rfl), if_neg (by omega : ¬cur < 0)]
    rw [show |(-cur)| = cur from by rw [abs_neg]; exact abs_of_nonneg hcur]
    rw [hstop, flashheap_read_eq h _ hrot]
    dsimp only
    rw [prevOf_snd h.hsize l₁ 0 0 h.offset]
    have hMV : freeMergeVal h.hsize (l₁.getLastD 0) (-cur)
        (h.mem (h.offset + h.size))
        = (-cur) + h.mem (h.offset + h.size) - h.hsize := by
      unfold freeMergeVal
      rw [if_neg (by omega), if_pos hnegend]
    have hMA : freeMergeAddr ((prevOf h.hsize l₁ 0 0 h.offset).1) d
        (l₁.getLastD 0) (h.mem (h.offset + h.size)) = d := by
      unfold freeMergeAddr
      rw [if_neg (by omega), if_pos hnegend]
    rw [hMV, hMA]
    unfold flashheap_write
    rw [hwd, if_pos rfl]
    dsimp only
    refine ⟨rfl, ?_⟩
    simp [memUpd]

/-- Heap for the C10 witness: single allocated packet (payload 2) tiling
`[10, 14)` with `hsize = 2`; the out-of-region header cell at 14 reads −3. -/
def heapC10 : Heap :=
  { mem := fun a => if a = 10 then 2 else if a = 14 then -3 else 0,
    readOK := fun _ => true, writeOK := fun _ => true,
    offset := 10, size := 4, last := 0, hsize := 2 }

/-- Witness for C10: freeing the last packet coalesces the −3 phantom read at
`offset + size = 14` into the merged header written at 10. -/
theorem free_last_packet_witness :
    (flashheap_free heapC10 10).1 = true ∧
    (flashheap_free heapC10 10).2.mem 10
      = (-2) + heapC10.mem (heapC10.offset + heapC10.size) - heapC10.hsize :=
  (free_last_packet_reads_past_end heapC10 [] 2 10 (by decide) (by decide)
    (by decide) (by decide)).2 (by decide) (by decide) (by decide)
    (by decide) (by decide) (by decide)

/-! ## C1: the tiling invariant -/

/-- A successful allocation on a tiled heap happens at a packet start of the
layout. -/
theorem allocLoop_some_layout (h : Heap) (s : Int) (hhs : 1 ≤ h.hsize) :
    ∀ (l : List Int) (fuel : Nat) (addr a : Int) (h2 : Heap),
      layoutAt h.mem h.hsize l addr (h.offset + h.size) →
      allocLoop h s fuel addr = (some a, h2) →
      ∃ (l₁ : List Int) (p : Int) (l₂ : List Int),
        l = l₁ ++ p :: l₂ ∧ a = addr + walkLen h.hsize l₁
  | [], fuel, addr, a, h2, hlay, heq => by
    have hstop : addr = h.offset + h.size := hlay
    cases fuel with
    | zero =>
      rw [allocLoop] at heq
      injection heq with e1 _
      exact Option.noConfusion e1
    | succ f =>
      rw [allocLoop, if_neg (by omega)] at heq
      injection heq with e1 _
      exact Option.noConfusion e1
  | p :: l, fuel, addr, a, h2, hlay, heq => by
    cases fuel with
    | zero =>
      rw [allocLoop] at heq
      injection heq with e1 _
      exact Option.noConfusion e1
    | succ f =>
      have heq0 := heq
      have hin : addr < h.offset + h.size :=
        layoutAt_head_lt h.mem h.hsize hhs p l addr _ hlay
      rw [allocLoop, if_pos hin] at heq
      rcases hrd : flashheap_packet_read h addr with _ | p0
      · rw [hrd] at heq
        dsimp only at heq
        injection heq with e1 _
        exact Option.noConfusion e1
      rw [hrd] at heq
      dsimp only at heq
      obtain ⟨_, hmem⟩ := flashheap_read_some h addr p0 hrd
      have hpq : p0 = p := by rw [← hmem]; exact hlay.1
      subst hpq
      by_cases hfit : p0 < 0 ∧ s ≤ -p0
      · have haddr := allocLoop_start_fit h s f addr a h2 hin
          (by rw [hmem]; exact hfit.1) (by rw [hmem]; exact hfit.2) heq0
        exact ⟨[], p0, l, rfl, by rw [haddr]; simp [walkLen]⟩
      · rw [if_neg hfit] at heq
        obtain ⟨l₁, p1, l₂, hdc, haeq⟩ := allocLoop_some_layout h s hhs l f
          (addr + (|p0| + h.hsize)) a h2 hlay.2 heq
        refine ⟨p0 :: l₁, p1, l₂, by simp [hdc], ?_⟩
        rw [haeq]
        simp only [walkLen]
        ring

/-- A clean successful allocation (exact fit, or a split whose remainder is
non-negative) preserves the tiling and does not touch the header cell at the
region end. -/
theorem alloc_preserves_tiling (h h2 : Heap) (l : List Int) (s a : Int)
    (hhs : 1 ≤ h.hsize) (ht : Tiled h l) (hs0 : 0 ≤ s)
    (ha : flashheap_alloc h s = (some a, h2))
    (hclean : s = -(h.mem a) ∨ s + h.hsize ≤ -(h.mem a)) :
    (∃ l2, Tiled h2 l2) ∧
    h2.mem (h.offset + h.size) = h.mem (h.offset + h.size) ∧
    h2.readOK = h.readOK ∧ h2.writeOK = h.writeOK ∧
    h2.offset = h.offset ∧ h2.size = h.size ∧ h2.hsize = h.hsize := by
  unfold flashheap_alloc at ha
  obtain ⟨l₁, p, l₂, hdc, haeq⟩ :=
    allocLoop_some_layout h s hhs l (h.size.toNat + 1) h.offset a h2 ht ha
  obtain ⟨hro, hneg, hfit, ar, aw, ao, asz, az, al, hwo, hcases⟩ :=
    allocLoop_some h s (h.size.toNat + 1) h.offset a h2 ha
  subst hdc
  have ht2 : layoutAt h.mem h.hsize (l₁ ++ p :: l₂) h.offset
      (h.offset + h.size) := ht
  rw [layoutAt_append] at ht2
  obtain ⟨hlayA, hlayC⟩ := ht2
  rw [← haeq] at hlayA hlayC
  have hmema : h.mem a = p := hlayC.1
  have hp : p < 0 := by rw [← hmema]; exact hneg
  have habsp : |p| = -p := abs_of_nonpos (by omega)
  have hlayB := hlayC.2
  have hble := layoutAt_le h.mem h.hsize (by omega) l₂ _ _ hlayB
  have halt : a < h.offset + h.size := by omega
  rw [hmema] at hcases hclean
  refine ⟨?_, ?_⟩
  · rcases hcases with ⟨hex, hm⟩ | ⟨hneq, hwo2, hm⟩
    · -- exact fit: flip the header in place
      refine ⟨l₁ ++ s :: l₂, ?_⟩
      unfold Tiled
      rw [ao, asz, az, hm]
      refine layout_replace h.mem h.hsize hhs l₁ l₂ h.offset a
        (a + (|p| + h.hsize)) _ s hlayA hlayB ?_
      rw [abs_of_nonneg hs0, habsp]
      omega
    · -- split: remainder header then allocated header
      have hcl : s + h.hsize ≤ -p := by omega
      have hrle : -(-p - s - h.hsize) ≤ 0 := by omega
      have hnane : a + h.hsize + s ≠ a := by omega
      refine ⟨l₁ ++ s :: -(-p - s - h.hsize) :: l₂, ?_⟩
      unfold Tiled
      rw [ao, asz, az, hm]
      rw [layoutAt_append]
      have hwlA := layoutAt_total h.mem h.hsize l₁ h.offset a hlayA
      rw [hwlA]
      refine ⟨?_, ?_, ?_⟩
      · -- the untouched prefix
        refine layoutAt_update_high _ h.hsize hhs a s l₁ h.offset a ?_ (le_refl a)
        exact layoutAt_update_high h.mem h.hsize hhs (a + h.hsize + s)
          (-(-p - s - h.hsize)) l₁ h.offset a hlayA (by omega)
      · -- the allocated header
        simp [memUpd]
      · -- the remainder header and the untouched suffix
        have hstep1 : a + (|s| + h.hsize) = a + h.hsize + s := by
          rw [abs_of_nonneg hs0]; ring
        rw [hstep1]
        refine ⟨?_, ?_⟩
        · unfold memUpd
          rw [if_neg hnane, if_pos rfl]
        · have hstep2 : a + h.hsize + s + (|(-(-p - s - h.hsize))| + h.hsize)
              = a + (|p| + h.hsize) := by
            rw [abs_of_nonpos hrle, habsp]; ring
          rw [hstep2]
          refine layoutAt_update_low _ h.hsize (by omega) a s l₂ _ _ ?_ (by omega)
          exact layoutAt_update_low h.mem h.hsize (by omega) (a + h.hsize + s)
            (-(-p - s - h.hsize)) l₂ _ _ hlayB (by omega)
  · rcases hcases with ⟨hex, hm⟩ | ⟨hneq, hwo2, hm⟩
    · refine ⟨?_, ar, aw, ao, asz, az⟩
      rw [hm]
      unfold memUpd
      rw [if_neg (by omega)]
    · refine ⟨?_, ar, aw, ao, asz, az⟩
      have hnalt : a + h.hsize + s < h.offset + h.size := by omega
      rw [hm]
      unfold memUpd
      rw [if_neg (by omega), if_neg (by omega)]

/-- A successful erase tiles the region with one free packet of magnitude
`size - hsize` (when the region admits at least one packet) and does not
touch the header cell at the region end. -/
theorem erase_tiling (h h2 : Heap) (hhs : 1 ≤ h.hsize) (hS : h.hsize ≤ h.size)
    (he : flashheap_erase h = (true, h2)) :
    Tiled h2 [-(h.size - h.hsize)] ∧
    h2.mem (h.offset + h.size) = h.mem (h.offset + h.size) ∧
    h2.readOK = h.readOK ∧ h2.writeOK = h.writeOK ∧
    h2.offset = h.offset ∧ h2.size = h.size ∧ h2.hsize = h.hsize := by
  obtain ⟨em, er, ew, eo, es, el, ez, _⟩ := flashheap_erase_some h h2 he
  refine ⟨?_, ?_, er, ew, eo, es, ez⟩
  · unfold Tiled
    rw [eo, es, ez, em]
    refine ⟨by simp [memUpd], ?_⟩
    show h.offset + (|(-(h.size - h.hsize))| + h.hsize) = h.offset + h.size
    rw [abs_neg, abs_of_nonneg (by omega : (0 : Int) ≤ h.size - h.hsize)]
    ring
  · rw [em]
    unfold memUpd
    rw [if_neg (by omega)]

/-- One clean heap operation: a successful alloc of a non-negative size whose
selected packet either fits exactly or leaves a non-negative split remainder,
a successful free of an address other than `offset + size`, or a successful
erase. -/
inductive CleanStep : Heap → Heap → Prop where
  | alloc (h h2 : Heap) (s a : Int) :
      flashheap_alloc h s = (some a, h2) → 0 ≤ s →
      (s = -(h.mem a) ∨ s + h.hsize ≤ -(h.mem a)) → CleanStep h h2
  | free (h h2 : Heap) (d : Int) :
      flashheap_free h d = (true, h2) → d ≠ h.offset + h.size →
      CleanStep h h2
  | erase (h h2 : Heap) :
      flashheap_erase h = (true, h2) → CleanStep h h2

/-- C1 amended: starting from a successfully erased heap (with
`1 ≤ header_size ≤ region_size` and a non-negative header value readable at
`offset+size`), after every sequence of successful clean operations — allocs
of non-negative sizes whose splits leave non-negative remainders, frees of
addresses other than `offset+size`, and erases — the packets exactly tile
`[offset, offset+size)`. -/
theorem tiling_invariant (h0 h1 hn : Heap)
    (hhs : 1 ≤ h0.hsize) (hS : h0.hsize ≤ h0.size)
    (hend : 0 ≤ h0.mem (h0.offset + h0.size))
    (he : flashheap_erase h0 = (true, h1))
    (hr : Relation.ReflTransGen CleanStep h1 hn) :
    ∃ l, Tiled hn l := by
  have hstep : ∀ g g2 : Heap,
      CleanStep g g2 →
      ((∃ l, Tiled g l) ∧ 0 ≤ g.mem (g.offset + g.size) ∧
        1 ≤ g.hsize ∧ g.hsize ≤ g.size) →
      (∃ l, Tiled g2 l) ∧ 0 ≤ g2.mem (g2.offset + g2.size) ∧
        1 ≤ g2.hsize ∧ g2.hsize ≤ g2.size := by
    intro g g2 hcs hP
    obtain ⟨⟨l, htl⟩, hPend, hPhs, hPS⟩ := hP
    cases hcs with
    | alloc s a ha hs0 hclean =>
      obtain ⟨htl2, hend2, _, _, ho2, hz2, hh2⟩ :=
        alloc_preserves_tiling g g2 l s a hPhs htl hs0 ha hclean
      rw [ho2, hz2, hh2]
      exact ⟨htl2, by rw [hend2]; exact hPend, hPhs, hPS⟩
    | free d hf hd =>
      obtain ⟨l₁, cur, l₂, _, _, _, _, hlay, hend2, _, _, ho2, hz2, _, hh2⟩ :=
        flashheap_free_success g g2 l d hPhs htl hPend hd hf
      refine ⟨⟨freeResultList g.hsize cur l₁ l₂, ?_⟩, ?_, ?_, ?_⟩
      · unfold Tiled
        rw [ho2, hz2, hh2]
        exact hlay
      · rw [ho2, hz2, hend2]
        exact hPend
      · rw [hh2]; exact hPhs
      · rw [hh2, hz2]; exact hPS
    | erase he2 =>
      obtain ⟨htl2, hend2, _, _, ho2, hz2, hh2⟩ :=
        erase_tiling g g2 hPhs hPS he2
      rw [ho2, hz2, hh2]
      exact ⟨⟨_, htl2⟩, by rw [hend2]; exact hPend, hPhs, hPS⟩
  have hbase : (∃ l, Tiled h1 l) ∧ 0 ≤ h1.mem (h1.offset + h1.size) ∧
      1 ≤ h1.hsize ∧ h1.hsize ≤ h1.size := by
    obtain ⟨htl1, hend1, _, _, ho1, hz1, hh1⟩ :=
      erase_tiling h0 h1 hhs hS he
    rw [ho1, hz1, hh1]
    exact ⟨⟨_, htl1⟩, by rw [hend1]; exact hend, hhs, hS⟩
  have : (∃ l, Tiled hn l) ∧ 0 ≤ hn.mem (hn.offset + hn.size) ∧
      1 ≤ hn.hsize ∧ hn.hsize ≤ hn.size := by
    induction hr with
    | refl => exact hbase
    | tail hsteps hlast ih => exact hstep _ _ hlast ih
  exact this.1

/-- Heap for the C1 counterexample: region `[1000, 1100)` (the spec's own
scenario geometry), `hsize = 2`, all storage zero, fault-free device. -/
def heapC1 : Heap :=
  { mem := fun _ => 0,
    readOK := fun _ => true, writeOK := fun _ => true,
    offset := 1000, size := 100, last := 0, hsize := 2 }

/-- C1 counterexample: after a successful erase (one free packet of magnitude
98) a successful `alloc 97` splits with a negative remainder, writing the
allocated header 97 at 1000 and the bogus header `+1` at 1099; the walk then
steps `1000 → 1099 → 1102`, overshooting the region end 1100, so no packet
list tiles the region: the claim fails after a single successful alloc. -/
theorem tiling_violation_counterexample :
    (flashheap_erase heapC1).1 = true ∧
    (flashheap_alloc (flashheap_erase heapC1).2 97).1 = some 1000 ∧
    ¬ ∃ l, Tiled (flashheap_alloc (flashheap_erase heapC1).2 97).2 l := by
  refine ⟨by decide, by decide, ?_⟩
  rintro ⟨l, hl⟩
  have e1 : (flashheap_alloc (flashheap_erase heapC1).2 97).2.mem 1000 = 97 := by
    decide
  have e2 : (flashheap_alloc (flashheap_erase heapC1).2 97).2.mem 1099 = 1 := by
    decide
  have hl2 : layoutAt (flashheap_alloc (flashheap_erase heapC1).2 97).2.mem
      2 l 1000 1100 := hl
  rcases l with _ | ⟨p, l2⟩
  · have : (1000 : Int) = 1100 := hl2
    omega
  have hp : p = 97 := by rw [← hl2.1, e1]
  subst hp
  have hl3 := hl2.2
  rw [show (1000 : Int) + (|(97 : Int)| + 2) = 1099 by decide] at hl3
  rcases l2 with _ | ⟨q, l3⟩
  · have : (1099 : Int) = 1100 := hl3
    omega
  have hq : q = 1 := by rw [← hl3.1, e2]
  subst hq
  have hl4 := hl3.2
  rw [show (1099 : Int) + (|(1 : Int)| + 2) = 1102 by decide] at hl4
  have := layoutAt_le _ 2 (by omega) l3 1102 1100 hl4
  omega

/-- Witness for the amended C1: after erase, one clean alloc of size 48 from
the free packet of capacity 98 leaves the heap tiled. -/
theorem tiling_invariant_witness :
    ∃ l, Tiled (flashheap_alloc (flashheap_erase heapC1).2 48).2 l :=
  tiling_invariant heapC1 (flashheap_erase heapC1).2
    (flashheap_alloc (flashheap_erase heapC1).2 48).2
    (by decide) (by decide) (by decide) rfl
    (Relation.ReflTransGen.single
      (CleanStep.alloc (flashheap_erase heapC1).2
        (flashheap_alloc (flashheap_erase heapC1).2 48).2 48 1000 rfl
        (by decide) (Or.inr (by decide))))
